import Mathlib

/-!
Verification development for the netctrl controllability core.

The definitions below are a shallow embedding of the C++ sources:
  * src/lib/util/directed_matching.cpp  (DirectedMatching)
  * src/lib/model/liu.cpp               (LiuControllabilityModel)
  * src/lib/model/switchboard.cpp       (SwitchboardControllabilityModel)

Graphs are finite directed multigraphs given by a vertex count and an
edge list in edge-index order, mirroring the igraph contract used by the
code (vcount, ecount, edgelist, degree, incident, neighbors).  External
collaborators (maximum bipartite matching, weak/strong component
labellings) are passed in as parameters, exactly as the code receives
their results from igraph.
-/

namespace Netctrl

/-- A directed multigraph: `n` vertices `0 .. n-1` and an edge list in
edge-index order.  Mirrors the igraph graph object as consumed by the
netctrl core. -/
structure Graph where
  n : Nat
  edges : List (Nat × Nat)

namespace Graph

/-- `ecount` of the graph. -/
def ecount (g : Graph) : Nat := g.edges.length

/-- Source vertex of edge `e` (edge index). -/
def src (g : Graph) (e : Nat) : Nat := (g.edges.getD e (0, 0)).1

/-- Target vertex of edge `e` (edge index); `IGRAPH_TO` in the code. -/
def tgt (g : Graph) (e : Nat) : Nat := (g.edges.getD e (0, 0)).2

/-- Well-formedness: every edge endpoint is a vertex. -/
def WF (g : Graph) : Prop :=
  ∀ e ∈ g.edges, e.1 < g.n ∧ e.2 < g.n

instance (g : Graph) : Decidable g.WF :=
  inferInstanceAs (Decidable (∀ e ∈ g.edges, e.1 < g.n ∧ e.2 < g.n))

/-- Out-degree of `v` (igraph `degree(v, IGRAPH_OUT, loops=true)`). -/
def outDeg (g : Graph) (v : Nat) : Nat :=
  (g.edges.filter (fun e => e.1 = v)).length

/-- In-degree of `v` (igraph `degree(v, IGRAPH_IN, loops=true)`). -/
def inDeg (g : Graph) (v : Nat) : Nat :=
  (g.edges.filter (fun e => e.2 = v)).length

/-- Edge indices leaving `v`, in ascending edge-index order
(igraph `incident(v, IGRAPH_OUT)`). -/
def incidentOut (g : Graph) (v : Nat) : List Nat :=
  (List.range g.ecount).filter (fun e => g.src e = v)

/-- Edge indices entering `v`, in ascending edge-index order
(igraph `incident(v, IGRAPH_IN)`). -/
def incidentIn (g : Graph) (v : Nat) : List Nat :=
  (List.range g.ecount).filter (fun e => g.tgt e = v)

/-- In-neighbors of `v` in edge-index order
(igraph `neighbors(v, IGRAPH_IN)`). -/
def neighborsIn (g : Graph) (v : Nat) : List Nat :=
  (g.incidentIn v).map (fun e => g.src e)

/-- Out-neighbors of `v` in edge-index order. -/
def neighborsOut (g : Graph) (v : Nat) : List Nat :=
  (g.incidentOut v).map (fun e => g.tgt e)

/-- All neighbors of `v` (igraph `neighbors(v, IGRAPH_ALL)`): out-neighbors
followed by in-neighbors. -/
def neighborsAll (g : Graph) (v : Nat) : List Nat :=
  g.neighborsOut v ++ g.neighborsIn v

/-- `getEid(u, v)`: index of the first edge `u → v`, or `-1` if absent,
encoded as `Option`. -/
def getEid (g : Graph) (u v : Nat) : Option Nat :=
  (List.range g.ecount).find? (fun e => g.src e = u ∧ g.tgt e = v)

/-- One vertex is adjacent to another, ignoring edge direction
(single step of weak connectivity). -/
def adj (g : Graph) (u v : Nat) : Prop :=
  ∃ e ∈ g.edges, (e.1 = u ∧ e.2 = v) ∨ (e.1 = v ∧ e.2 = u)

/-- Weak connectivity: reflexive-transitive closure of undirected
adjacency.  This is the semantics of the igraph weak-component labelling
the code obtains from `clusters(..., IGRAPH_WEAK)`. -/
def weakConn (g : Graph) : Nat → Nat → Prop :=
  Relation.ReflTransGen g.adj

end Graph

/-!
## Directed matching (src/lib/util/directed_matching.cpp)

`m_inMapping` is a dense vector indexed by vertex with `-1` meaning
"unmatched"; we embed it as a total function `Int → Int` (the code only
ever reads indices that exist).  `m_outMapping` is a `std::map` from a
matching vertex to the list of vertices it matches; an absent key is
observationally identical to an empty list (both make `matchOut` return
null), so we embed it as a total function `Int → List Int` defaulting
to `[]`.
-/

/-- The `DirectedMatching` data structure. -/
structure DirectedMatching where
  inMapping : Int → Int
  outMapping : Int → List Int

namespace DirectedMatching

/-- `DirectedMatching(n)`: all vertices unmatched. -/
def empty : DirectedMatching :=
  { inMapping := fun _ => -1, outMapping := fun _ => [] }

/-- `matchIn(v)`. -/
def matchIn (M : DirectedMatching) (v : Int) : Int := M.inMapping v

/-- `isMatched(v)`: `matchIn(v) != -1`. -/
def isMatched (M : DirectedMatching) (v : Int) : Prop := M.matchIn v ≠ -1

/-- `unmatch(v)`: destroy the matching pair ending in `v`.

The code looks up the first occurrence of `v` in `m_outMapping[u]`
(`search(0, v, &index)` followed by `remove(index)`); `List.erase`
removes exactly the first occurrence.  (When `v` is absent the C++
`search` fails and leaves `index` unset; on consistent states `v` is
always present, and we model the absent case as a no-op.) -/
def unmatch (M : DirectedMatching) (v : Int) : DirectedMatching :=
  if v = -1 then M
  else
    let u := M.inMapping v
    if u = -1 then M
    else
      { inMapping := fun x => if x = v then -1 else M.inMapping x,
        outMapping := fun x => if x = u then (M.outMapping u).erase v else M.outMapping x }

/-- `setMatch(u, v)`: no-op when `u` or `v` is `-1` or the pair is already
present; otherwise remove the pair ending in `v` first, then insert. -/
def setMatch (M : DirectedMatching) (u v : Int) : DirectedMatching :=
  if v = -1 ∨ u = -1 ∨ M.inMapping v = u then M
  else
    let M1 := M.unmatch v
    { inMapping := fun x => if x = v then u else M1.inMapping x,
      outMapping := fun x => if x = u then M1.outMapping u ++ [v] else M1.outMapping x }

/-- Representation invariant of the structure (the class documentation:
each node may be matched by at most one other node, and the two maps
mirror each other): `v` lies in the out-list of `u` exactly when the
in-mapping records `u` as the matcher of `v`, and out-lists carry no
duplicates. -/
def consistent (M : DirectedMatching) : Prop :=
  (∀ u v : Int, v ∈ M.outMapping u ↔ (u ≠ -1 ∧ v ≠ -1 ∧ M.inMapping v = u)) ∧
  (∀ u : Int, (M.outMapping u).Nodup)

end DirectedMatching

/-!
## Proof infrastructure for the control-path partition

These definitions do not correspond to code; they name the quantities
the invariance proofs below speak about.
-/

/-- Number of vertices not yet marked used (termination measure of the
stem, bud and walk loops). -/
def unusedCount (n : Nat) (used : Nat → Bool) : Nat :=
  ((List.range n).filter (fun v => used v = false)).length

/-- Pointwise update of a used-bitmap. -/
def markUsed (used : Nat → Bool) (u : Nat) : Nat → Bool :=
  fun x => if x = u then true else used x

/-- `linkedTo mIn l v`: successive elements of `l` are `matchIn`-linked
and the last element is matched by `v` (`mIn a = next`).  Used to
describe bud chains, which follow `v := matchIn(v)`. -/
def linkedTo (mIn : Nat → Int) : List Nat → Nat → Prop
  | [], _ => True
  | [a], v => mIn a = (v : Int)
  | a :: b :: rest, v => mIn a = (b : Int) ∧ linkedTo mIn (b :: rest) v

/-- Used vertices are closed under following the matching forwards:
whenever `u` is used and `w` is one of the vertices `u` matches, `w` is
used too. -/
def OutClosed (n : Nat) (mIn : Nat → Int) (used : Nat → Bool) : Prop :=
  ∀ u w, used u = true → w < n → mIn w = (u : Int) → used w = true

/-- Every unmatched vertex is already used (all drivers got a stem). -/
def RootsUsed (n : Nat) (mIn : Nat → Int) (used : Nat → Bool) : Prop :=
  ∀ v, v < n → mIn v = -1 → used v = true

/-!
## Liu solver, untargeted case (src/lib/model/liu.cpp)

`calculateUntargetedMatching` obtains the igraph maximum bipartite
matching as a vector `matching` with `matching[v] = u` when the matched
edge `u → v` was selected, `-1` otherwise, and wraps it in a
`DirectedMatching`.  We embed that vector as a function `mIn : Nat → Int`
(the external solver's output is a parameter of the model, per the
graph-library contract in the spec).  The one-argument
`DirectedMatching` constructor builds `m_outMapping[u]` by scanning `i`
in ascending order, so `matchOut u` is the ascending list of all `v`
with `mIn v = u`.
-/

/-- `matchOut u` of the matching built from the vector `mIn`: ascending
list of the vertices matched by `u`. -/
def matchOutList (n : Nat) (mIn : Nat → Int) (u : Nat) : List Nat :=
  (List.range n).filter (fun v => mIn v = (u : Int))

/-- State of the stem-construction loop in `calculateControlPaths`:
the stem queue (each stem has an identity — the C++ object pointer — and
its node list), the `vertexUsed` bitmap, the `verticesToStems` map
(vertex to stem identity), the emitted control paths and a fresh-identity
counter. -/
structure StemState where
  queue : List (Nat × List Nat)
  used : Nat → Bool
  vts : Nat → Option Nat
  paths : List (Nat × List Nat)
  nextId : Nat

/-- Tip of a stem (`stem->tip()`, the last node). -/
def tipOf (nodes : List Nat) : Nat := nodes.getLastD 0

/-- One driver's worth of the stem queue loop: pop the front stem, mark
its tip used and owned, then either emit it (no out-match) or push the
clones (for the second and later out-matches) followed by the extended
original.  The fuel only guards the recursion; since `mIn` is a
function, each vertex becomes a tip at most once per driver, so `n + 1`
iterations always drain the queue exactly as the C++ `while` does. -/
def stemLoop (n : Nat) (mIn : Nat → Int) : Nat → StemState → StemState
  | 0, st => st
  | fuel + 1, st =>
    match st.queue with
    | [] => st
    | (sid, nodes) :: rest =>
      let u := tipOf nodes
      let used' := markUsed st.used u
      let vts' := fun x => if x = u then some sid else st.vts x
      match matchOutList n mIn u with
      | [] =>
        stemLoop n mIn fuel
          { queue := rest, used := used', vts := vts',
            paths := st.paths ++ [(sid, nodes)], nextId := st.nextId }
      | w :: ws =>
        stemLoop n mIn fuel
          { queue := rest ++ (ws.enum.map (fun p => (st.nextId + p.1, nodes ++ [p.2])))
              ++ [(sid, nodes ++ [w])],
            used := used', vts := vts', paths := st.paths,
            nextId := st.nextId + ws.length }

/-- Stem phase of `calculateControlPaths`: for each driver node push a
fresh one-node stem and drain the queue. -/
def stemsPhase (n : Nat) (mIn : Nat → Int) (drivers : List Nat) : StemState :=
  drivers.foldl
    (fun st d =>
      stemLoop n mIn (n + 1)
        { queue := [(st.nextId, [d])], used := st.used, vts := st.vts,
          paths := st.paths, nextId := st.nextId + 1 })
    { queue := [], used := fun _ => false, vts := fun _ => none, paths := [],
      nextId := 0 }

/-- A bud: its node list plus the identity of the stem it is attached to,
if any (`Bud::stem()`, a non-owning reference). -/
structure BudRec where
  nodes : List Nat
  stemRef : Option Nat

/-- The bud-growing loop: starting from `v`, append nodes while unused,
following `matchIn`.  Returns `none` (bud deleted) if a `-1` match is
hit — C++ keeps the `vertexUsed` marks in that case, and so do we. -/
def budChain (mIn : Nat → Int) : Nat → Nat → (Nat → Bool) →
    Option (List Nat) × (Nat → Bool)
  | 0, _, used => (some [], used)
  | fuel + 1, v, used =>
    if used v then (some [], used)
    else
      let used' := markUsed used v
      let w := mIn v
      if w = -1 then (none, used')
      else
        let r := budChain mIn fuel w.toNat used'
        (r.1.map (fun rest => v :: rest), r.2)

/-- Drop the duplicated final node of a closed bud
(`if (bud->size() > 1 && front == back) pop_back()`). -/
def popBackIfClosed (nodes : List Nat) : List Nat :=
  if 1 < nodes.length ∧ nodes.head? = nodes.getLast? then nodes.dropLast
  else nodes

/-- Bud-to-stem attachment: the stem owning the first in-neighbor, over
bud nodes in order, that already belongs to a stem. -/
def firstStemRef (g : Graph) (vts : Nat → Option Nat) : List Nat → Option Nat
  | [] => none
  | x :: rest =>
    match (g.neighborsIn x).findSome? vts with
    | some s => some s
    | none => firstStemRef g vts rest

/-- Bud phase of `calculateControlPaths`: for each vertex that is still
unused but matched, grow a bud, drop its duplicated tail node, and
attach it to a stem when possible. -/
def budsPhase (g : Graph) (mIn : Nat → Int) (vts : Nat → Option Nat)
    (used0 : Nat → Bool) : (Nat → Bool) × List BudRec :=
  (List.range g.n).foldl
    (fun acc u =>
      if acc.1 u then acc
      else if mIn u = -1 then acc
      else
        match budChain mIn (g.n + 1) u acc.1 with
        | (none, used') => (used', acc.2)
        | (some nodes, used') =>
          let nodes' := popBackIfClosed nodes
          (used', acc.2 ++ [⟨nodes', firstStemRef g vts nodes'⟩]))
    (used0, [])

/-- Driver-node list of the untargeted branch: every unmatched vertex,
ascending. -/
def liuDrivers (n : Nat) (mIn : Nat → Int) : List Nat :=
  (List.range n).filter (fun v => mIn v = -1)

/-- Result of `calculateControlPaths` in the untargeted case. -/
structure LiuPathsResult where
  drivers : List Nat
  stems : List (Nat × List Nat)
  buds : List BudRec
  vts : Nat → Option Nat
  used : Nat → Bool

/-- `LiuControllabilityModel::calculateControlPaths`, untargeted branch:
compute the driver list (unmatched vertices), build stems from each
driver, build buds from the remaining matched vertices, and finally
fall back to driver set `{0}` if no driver was found. -/
def calculateControlPathsU (g : Graph) (mIn : Nat → Int) : LiuPathsResult :=
  let drivers := liuDrivers g.n mIn
  let sp := stemsPhase g.n mIn drivers
  let bp := budsPhase g mIn sp.vts sp.used
  { drivers := if drivers = [] then [0] else drivers,
    stems := sp.paths, buds := bp.2, vts := sp.vts, used := bp.1 }

/-- All vertices of all stems followed by all vertices of all buds, with
multiplicity. -/
def pathVertices (r : LiuPathsResult) : List Nat :=
  (r.stems.map Prod.snd).flatten ++ (r.buds.map BudRec.nodes).flatten

/-!
## Stem-phase proof infrastructure
-/

/-- The nodes covered by the emitted stems plus the active stem of a
stem-phase state. -/
def coveredList (st : StemState) : List Nat :=
  (st.paths.map Prod.snd).flatten ++
    (match st.queue with
     | [] => []
     | (_, nodes) :: _ => nodes)

/-- Tip of the front stem of the queue, if any. -/
def activeTip (st : StemState) : Option Nat :=
  match st.queue with
  | [] => none
  | (_, nodes) :: _ => some (tipOf nodes)

/-- The active stem of a stem-phase state is well-formed: nonempty,
in-range, everything but the tip already marked used, the tip not yet
used, and the tip either an unmatched root or matched by a node earlier
in the stem. -/
structure ActiveOk (n : Nat) (mIn : Nat → Int) (roots : List Nat)
    (used : Nat → Bool) (nodes : List Nat) : Prop where
  ne : nodes ≠ []
  lt : ∀ x ∈ nodes, x < n
  preUsed : ∀ x ∈ nodes.dropLast, used x = true
  tipFree : used (tipOf nodes) = false
  tipBack : (mIn (tipOf nodes) = -1 ∧ tipOf nodes ∈ roots) ∨
    ∃ p ∈ nodes.dropLast, mIn (tipOf nodes) = (p : Int)

/-- Invariant of the stem-construction loop, for matchings where each
vertex matches at most one other vertex (the untargeted setting): the
queue holds at most one well-formed stem; the used bitmap is in range
and coincides, with multiplicity one, with the vertices covered by the
emitted and active stems (tip excepted); used vertices are closed
forwards (their out-matches are used or the active tip) and backwards
(their matcher is used); and unmatched used vertices are roots. -/
structure StemInv (n : Nat) (mIn : Nat → Int) (roots : List Nat)
    (st : StemState) : Prop where
  qshape : st.queue = [] ∨ ∃ sid nodes, st.queue = [(sid, nodes)] ∧
    ActiveOk n mIn roots st.used nodes
  usedLt : ∀ v, st.used v = true → v < n
  counts : ∀ v, (coveredList st).count v =
    (if st.used v = true ∨ activeTip st = some v then 1 else 0)
  outClosed : ∀ u w, st.used u = true → w ∈ matchOutList n mIn u →
    st.used w = true ∨ activeTip st = some w
  backClosed : ∀ w, st.used w = true →
    mIn w = -1 ∨ ∃ p, p < n ∧ mIn w = (p : Int) ∧ st.used p = true
  rootsOnly : ∀ w, st.used w = true → mIn w = -1 → w ∈ roots

/-!
## Edge classes and the Liu edge classifier (src/lib/model/liu.cpp)
-/

/-- The `EdgeClass` enumeration from `netctrl/model/controllability.h`. -/
inductive EdgeClass where
  | ordinary
  | redundant
  | critical
  | distinguished
deriving DecidableEq, Repr

/-- The recoverable solver error of the core (`unsupported-operation`). -/
inductive SolverError where
  | notSupported
deriving DecidableEq, Repr

/-- `constructDirectedBipartiteGraphFromMatching` for a directed graph:
edge `i = (u, v)` of `G` becomes `v → u+n` when the matching selected it
(`matchIn(v) = u`), else `u+n → v`; edge indices are preserved.  (The
extra reversed edge set for undirected inputs is omitted: the tool's
graphs are directed by contract.) -/
def bipFromMatching (g : Graph) (mIn : Nat → Int) : Graph :=
  { n := 2 * g.n,
    edges := g.edges.map (fun e =>
      if mIn e.2 = (e.1 : Int) then (e.2, e.1 + g.n) else (e.1 + g.n, e.2)) }

/-- BFS seeds of the Régin classification: every unmatched left vertex
`v` and every non-matching right vertex `v + n`, scanned in vertex
order. -/
def classSeeds (n : Nat) (mIn : Nat → Int) : List Nat :=
  (List.range n).flatMap (fun v =>
    (if mIn v = -1 then [v] else []) ++
    (if matchOutList n mIn v = [] then [v + n] else []))

/-- One BFS of the Régin classification over the oriented bipartite
graph.  `forward = false` is step (3a): walk edges backwards
(`incident(to, IGRAPH_IN)`, continue from the edge source); `forward =
true` is step (3b).  Every traversed edge index is marked `ordinary`. -/
def bfsMark (bip : Graph) (forward : Bool) :
    Nat → List Nat → (Nat → Bool) → List EdgeClass → List EdgeClass
  | 0, _, _, res => res
  | fuel + 1, queue, seen, res =>
    match queue with
    | [] => res
    | x :: rest =>
      let incs := if forward then bip.incidentOut x else bip.incidentIn x
      let s := incs.foldl
        (fun (t : List EdgeClass × List Nat × (Nat → Bool)) eid =>
          let r' := t.1.set eid EdgeClass.ordinary
          let y := if forward then bip.tgt eid else bip.src eid
          if t.2.2 y then (r', t.2.1, t.2.2)
          else (r', t.2.1 ++ [y], markUsed t.2.2 y))
        (res, rest, seen)
      bfsMark bip forward fuel s.2.1 s.2.2 s.1

/-- Step (4) of the Régin classification: mark every edge whose
endpoints share a strong component of the oriented bipartite graph as
`ordinary`. -/
def sccPass (bip : Graph) (scc : Nat → Nat) (m : Nat)
    (res : List EdgeClass) : List EdgeClass :=
  (List.range m).foldl
    (fun r i =>
      if scc (bip.src i) = scc (bip.tgt i) then r.set i EdgeClass.ordinary
      else r) res

/-- Step (5): every matched pair whose graph edge is still `redundant`
becomes `critical`.  (`getEid` cannot fail for a matching delivered by
the external solver, whose pairs are graph edges; the impossible `none`
case is a no-op.) -/
def criticalPass (g : Graph) (mIn : Nat → Int)
    (res : List EdgeClass) : List EdgeClass :=
  (List.range g.n).foldl
    (fun r v =>
      if mIn v = -1 then r
      else
        match g.getEid (mIn v).toNat v with
        | none => r
        | some i =>
          if r.getD i EdgeClass.redundant = EdgeClass.redundant then
            r.set i EdgeClass.critical
          else r)
    res

/-- `LiuControllabilityModel::edgeClasses`, after the support check: the
algorithm adapted from Régin (1994) — initialize to `redundant`, run the
backward and forward BFS passes from the unmatched seeds, then the
strong-component pass and the critical promotion.  `scc` is the
strong-component labelling of the oriented bipartite graph delivered by
the external graph library (`clusters(..., IGRAPH_STRONG)`). -/
def liuEdgeClassesCore (g : Graph) (mIn : Nat → Int) (scc : Nat → Nat) :
    List EdgeClass :=
  criticalPass g mIn
    (sccPass (bipFromMatching g mIn) scc g.ecount
      (bfsMark (bipFromMatching g mIn) true (2 * g.n + 1) (classSeeds g.n mIn)
        (fun x => decide (x ∈ classSeeds g.n mIn))
        (bfsMark (bipFromMatching g mIn) false (2 * g.n + 1) (classSeeds g.n mIn)
          (fun x => decide (x ∈ classSeeds g.n mIn))
          (List.replicate g.ecount EdgeClass.redundant))))

/-- The public `edgeClasses` entry point: throws `unsupported-operation`
first thing when a target set is present (`supportsEdgeClasses()` is
`m_pTargets == 0`), otherwise runs the classifier.  The C++ method is
`const`: it never mutates solver state. -/
def liuEdgeClassesOp (g : Graph) (targets : Option (List Nat))
    (mIn : Nat → Int) (scc : Nat → Nat) :
    Except SolverError (List EdgeClass) :=
  match targets with
  | some _ => Except.error SolverError.notSupported
  | none => Except.ok (liuEdgeClassesCore g mIn scc)

/-- Invariant of the bud-construction fold: the base list (the stem
vertices) together with the bud vertices covers each used vertex exactly
once, used vertices are in range, and the used set is closed forwards
along the matching and contains every unmatched vertex. -/
structure BudInv (n : Nat) (mIn : Nat → Int) (base : List Nat)
    (used : Nat → Bool) (buds : List BudRec) : Prop where
  counts : ∀ v, (base ++ (buds.map BudRec.nodes).flatten).count v =
    if used v = true then 1 else 0
  usedLt : ∀ v, used v = true → v < n
  oc : OutClosed n mIn used
  ru : RootsUsed n mIn used

/-!
## Switchboard (SBD) solver (src/lib/model/switchboard.cpp)

The weak-component labelling (`clusters(..., IGRAPH_WEAK)`) is a
parameter, per the graph-library contract.  The residual degree vectors
and the `edgeUsed` bitmap are the local variables of `calculate()`; the
walk edge lists record which edge each iteration of
`createControlPathFromNode` marked used (the code stores only the node
sequence — `OpenWalk::edges` recomputes edge ids — so the trace here is
the list of edges the walk actually consumed).
-/

/-- SBD control paths (`OpenWalk` / `ClosedWalk`). -/
inductive SBDPath where
  | openWalk (nodes : List Nat)
  | closedWalk (nodes : List Nat)
deriving DecidableEq, Repr

/-- `needsInputSignal()`: open walks need one, closed walks do not. -/
def SBDPath.needsInputSignal : SBDPath → Bool
  | .openWalk _ => true
  | .closedWalk _ => false

/-- `isBalanced` macro of `calculate()`:
`outDegrees[i] == inDegrees[i] && outDegrees[i] > 0`. -/
def isBalancedV (g : Graph) (i : Nat) : Prop :=
  g.outDeg i = g.inDeg i ∧ 0 < g.outDeg i

instance (g : Graph) (i : Nat) : Decidable (isBalancedV g i) :=
  inferInstanceAs (Decidable (_ ∧ _))

/-- Driver-node phase of `SwitchboardControllabilityModel::calculate()`:
divergent vertices in ascending order, then — when balanced vertices
exist — the first vertex of every weakly-connected component whose
vertices are all balanced. -/
def sbdDrivers (g : Graph) (membership : Nat → Nat)
    (clusterCount : Nat) : List Nat :=
  let divergent := (List.range g.n).filter (fun i => g.inDeg i < g.outDeg i)
  let balancedCount :=
    ((List.range g.n).filter
      (fun i => decide (¬ g.inDeg i < g.outDeg i ∧ isBalancedV g i))).length
  if 0 < balancedCount then
    let bc := (List.range g.n).foldl
      (fun bc i =>
        if isBalancedV g i then bc
        else fun j => if j = membership i then false else bc j)
      (fun _ => true)
    ((List.range g.n).foldl
      (fun (p : List Nat × (Nat → Bool)) i =>
        if p.2 (membership i) then
          (p.1 ++ [i], fun j => if j = membership i then false else p.2 j)
        else p)
      (divergent, bc)).1
  else divergent

/-- Result of one run of the walk loop inside
`createControlPathFromNode`: the node sequence (`walk`), the consumed
edge ids, the final vertex `v`, and the updated
`edgeUsed`/`outDegrees`/`inDegrees`. -/
structure WalkOut where
  nodes : List Nat
  edges : List Nat
  vfin : Nat
  edgeUsed : Nat → Bool
  outD : Nat → Int
  inD : Nat → Int

/-- The walk loop of `createControlPathFromNode`: repeatedly take the
first unused outbound edge, mark it used, decrement the residual
degrees, and move on; stop when no unused outbound edge exists. -/
def walkStep (g : Graph) : Nat → Nat → (Nat → Bool) → (Nat → Int) →
    (Nat → Int) → WalkOut
  | 0, v, used, outD, inD => ⟨[], [], v, used, outD, inD⟩
  | fuel + 1, v, used, outD, inD =>
    match (g.incidentOut v).find? (fun e => used e = false) with
    | none => ⟨[], [], v, used, outD, inD⟩
    | some w =>
      let used' := markUsed used w
      let outD' := fun x => if x = v then outD x - 1 else outD x
      let t := g.tgt w
      let inD' := fun x => if x = t then inD x - 1 else inD x
      let r := walkStep g fuel t used' outD' inD'
      ⟨v :: r.nodes, w :: r.edges, r.vfin, r.edgeUsed, r.outD, r.inD⟩

/-- Mutable state threaded through the two walk-packing phases of
`calculate()`. -/
structure SBDState where
  edgeUsed : Nat → Bool
  outD : Nat → Int
  inD : Nat → Int
  paths : List SBDPath
  pathEdges : List (List Nat)

/-- `createControlPathFromNode` plus the `push_back` of its result: an
open walk when the walk did not return to the start, nothing when no
step could be taken, otherwise a closed walk.  (When no step is taken
the C++ would push a null pointer; that situation is unreachable from
the two call sites, whose loop guards ensure an unused outbound edge
exists.) -/
def doWalk (g : Graph) (v : Nat) (st : SBDState) : SBDState :=
  let r := walkStep g (g.ecount + 1) v st.edgeUsed st.outD st.inD
  if r.vfin ≠ v then
    { edgeUsed := r.edgeUsed, outD := r.outD, inD := r.inD,
      paths := st.paths ++ [SBDPath.openWalk (r.nodes ++ [r.vfin])],
      pathEdges := st.pathEdges ++ [r.edges] }
  else if r.nodes = [] then
    { edgeUsed := r.edgeUsed, outD := r.outD, inD := r.inD,
      paths := st.paths, pathEdges := st.pathEdges }
  else
    { edgeUsed := r.edgeUsed, outD := r.outD, inD := r.inD,
      paths := st.paths ++ [SBDPath.closedWalk r.nodes],
      pathEdges := st.pathEdges ++ [r.edges] }

/-- Phase-1 inner loop: `while (outDegrees[d] > inDegrees[d])` walk from
the divergent node `d`. -/
def phase1Inner (g : Graph) : Nat → Nat → SBDState → SBDState
  | 0, _, st => st
  | fuel + 1, d, st =>
    if st.inD d < st.outD d then phase1Inner g fuel d (doWalk g d st) else st

/-- Phase-2 inner loop: `while (outDegrees[i] > 0)` walk from `i`. -/
def phase2Inner (g : Graph) : Nat → Nat → SBDState → SBDState
  | 0, _, st => st
  | fuel + 1, i, st =>
    if 0 < st.outD i then phase2Inner g fuel i (doWalk g i st) else st

/-- Result of `SwitchboardControllabilityModel::calculate()`. -/
structure SBDResult where
  driverNodes : List Nat
  paths : List SBDPath
  pathEdges : List (List Nat)
  edgeUsed : Nat → Bool
  outD : Nat → Int
  inD : Nat → Int

/-- `SwitchboardControllabilityModel::calculate()`: find the drivers,
then pack walks — phase 1 over the driver list (balanced entries skip
the loop immediately), phase 2 over all vertices in index order. -/
def sbdCalculate (g : Graph) (membership : Nat → Nat)
    (clusterCount : Nat) : SBDResult :=
  let drivers := sbdDrivers g membership clusterCount
  let st0 : SBDState :=
    { edgeUsed := fun _ => false, outD := fun v => (g.outDeg v : Int),
      inD := fun v => (g.inDeg v : Int), paths := [], pathEdges := [] }
  let st1 := drivers.foldl
    (fun st d => phase1Inner g (g.ecount + 1) d st) st0
  let st2 := (List.range g.n).foldl
    (fun st i => phase2Inner g (g.ecount + 1) i st) st1
  { driverNodes := drivers, paths := st2.paths, pathEdges := st2.pathEdges,
    edgeUsed := st2.edgeUsed, outD := st2.outD, inD := st2.inD }

/-- The controllability-measure selector of the SBD model. -/
inductive CMeasure where
  | node
  | edge
deriving DecidableEq, Repr

/-- `SwitchboardControllabilityModel::controllability()`.  The C++
returns a `float`; the counts are exact small integers, so `ℚ` is a
faithful idealization.  With `EDGE_MEASURE` the code divides the number
of control paths that need an input signal by `|E|`; the
`TODO: add balanced components` comment marks the balanced-component
term of the documented formula as not implemented. -/
def sbdControllability (g : Graph) (r : SBDResult) : CMeasure → ℚ
  | .node => (r.driverNodes.length : ℚ) / (g.n : ℚ)
  | .edge =>
    ((r.paths.filter (fun p => p.needsInputSignal)).length : ℚ) / (g.ecount : ℚ)

/-- Number of weakly-connected components whose vertices are all
balanced, from the component labelling.  Stated from the spec's words
for comparison with the implemented measure. -/
def balancedComponentCount (g : Graph) (membership : Nat → Nat)
    (clusterCount : Nat) : Nat :=
  ((List.range clusterCount).filter (fun j => decide
    ((∃ i ∈ List.range g.n, membership i = j) ∧
     (∀ i ∈ List.range g.n, membership i = j → isBalancedV g i)))).length

/-- The edge measure the specification describes:
`(# open walks + # balanced components) / |E|`. -/
def specEdgeMeasure (g : Graph) (r : SBDResult) (membership : Nat → Nat)
    (clusterCount : Nat) : ℚ :=
  (((r.paths.filter (fun p => p.needsInputSignal)).length +
    balancedComponentCount g membership clusterCount : Nat) : ℚ) / (g.ecount : ℚ)

/-!
## SBD edge classifier
(`changesInDriverNodesAfterEdgeRemoval` / `edgeClasses`)
-/

/-- `degreeDiffs` of `changesInDriverNodesAfterEdgeRemoval`: in-degree
minus out-degree per vertex (`degreeDiffs -= outDegrees`). -/
def degreeDiffs (g : Graph) : Nat → Int :=
  fun v => (g.inDeg v : Int) - (g.outDeg v : Int)

/-- Inner neighbor scan of the balanced-component BFS: skip visited
neighbors, abort (`result = false; q.clear(); break`) on an unbalanced
one, otherwise enqueue and mark visited.  `none` encodes the abort. -/
def bfsScan (dd : Nat → Int) :
    List Nat → List Nat → (Nat → Bool) → Option (List Nat × (Nat → Bool))
  | [], q, visited => some (q, visited)
  | u :: rest, q, visited =>
    if visited u then bfsScan dd rest q visited
    else if dd u ≠ 0 then none
    else bfsScan dd rest (q ++ [u]) (fun x => if x = u then true else visited x)

/-- Outer loop of the balanced-component BFS; at most one vertex is
enqueued per vertex of the graph, so fuel `g.n + 1` is never
exhausted. -/
def bfsLoop (g : Graph) (dd : Nat → Int) :
    Nat → List Nat → (Nat → Bool) → Bool
  | 0, _, _ => true
  | _ + 1, [], _ => true
  | fuel + 1, v :: q, visited =>
    match bfsScan dd (g.neighborsAll v) q visited with
    | none => false
    | some (q', visited') => bfsLoop g dd fuel q' visited'

/-- `isInBalancedComponentExcept(v, u, degreeDiffs)`: `v` balanced, has a
neighbor other than `u`, and a BFS over neighbors (skipping `u`) finds
no unbalanced vertex.  `u` may be `-1` (`isInBalancedComponent`). -/
def isInBalancedComponentExcept (g : Graph) (v : Nat) (u : Int)
    (dd : Nat → Int) : Bool :=
  if dd v ≠ 0 then false
  else
    let neis := g.neighborsAll v
    if neis = [] ∨ (neis.length = 1 ∧ ((neis.headD 0 : Int) = u)) then false
    else
      let visited0 : Nat → Bool := fun x => decide (x = v)
      let visited1 : Nat → Bool :=
        if 0 ≤ u then fun x => if (x : Int) = u then true else visited0 x
        else visited0
      bfsLoop g dd (g.n + 1) [v] visited1

/-- `isInBalancedComponent(v, degreeDiffs)`. -/
def isInBalancedComponent (g : Graph) (v : Nat) (dd : Nat → Int) : Bool :=
  isInBalancedComponentExcept g v (-1) dd

/-- Per-edge body of the `changesInDriverNodesAfterEdgeRemoval` loop:
the successive updates of `result[i]`, with the temporary
`degreeDiffs[v]--; degreeDiffs[u]++` adjustments applied as function
updates (and restored by simply not propagating them). -/
def changeForEdge (g : Graph) (dd : Nat → Int) (i : Nat) : Int :=
  let u := g.src i
  let v := g.tgt i
  let r1 : Int := if dd u = -1 then 0 - 1 else 0
  let r2 := if dd v = 0 then r1 + 1 else r1
  let r3 := if dd u = 0 ∧ dd v = 0 then
      (if isInBalancedComponent g u dd then r2 - 1 else r2) else r2
  let r4 := if dd v = 1 then
      (let dd1 := fun x => if x = v then dd x - 1 else dd x
       let dd2 := fun x => if x = u then dd1 x + 1 else dd1 x
       if isInBalancedComponentExcept g v (u : Int) dd2 then r3 + 1 else r3)
    else r3
  if dd u = -1 then
    (let dd1 := fun x => if x = v then dd x - 1 else dd x
     let dd2 := fun x => if x = u then dd1 x + 1 else dd1 x
     if isInBalancedComponentExcept g u (v : Int) dd2 then r4 + 1 else r4)
  else r4

/-- `SwitchboardControllabilityModel::changesInDriverNodesAfterEdgeRemoval`:
the per-edge score vector, in edge-index order. -/
def sbdDriverChanges (g : Graph) : List Int :=
  (List.range g.ecount).map (changeForEdge g (degreeDiffs g))

/-- `SwitchboardControllabilityModel::edgeClasses`: map each score
through `< 0 → DISTINGUISHED`, `= 0 → REDUNDANT`, else `CRITICAL`. -/
def sbdEdgeClasses (g : Graph) : List EdgeClass :=
  (sbdDriverChanges g).map (fun d =>
    if d < 0 then EdgeClass.distinguished
    else if d = 0 then EdgeClass.redundant
    else EdgeClass.critical)

/-!
## Solver-level `calculate()` (repeated runs)

`m_controlPaths` is the member vector of `ControlPath*`.
`clearControlPaths()` — identical in both solvers and in every revision
— walks the vector and `delete`s each element, but never calls
`m_controlPaths.clear()`: the vector keeps its (now dangling) entries.
`calculate()` then `push_back`s the newly created paths after them.  We
model the vector's entries; `delete` does not change the vector.
-/

/-- `clearControlPaths()`: frees the heap objects, leaves the vector's
entries in place (there is no `clear()` call on the vector). -/
def clearControlPathsOp (paths : List SBDPath) : List SBDPath := paths

/-- `SwitchboardControllabilityModel::calculate()` as a transition on
the member state `(m_driverNodes, m_controlPaths)`: the driver list is
cleared and recomputed from the graph alone; the control-path vector is
"cleared" by `clearControlPaths()` and the new walks are appended. -/
def sbdSolverCalculate (g : Graph) (membership : Nat → Nat)
    (clusterCount : Nat) (prevPaths : List SBDPath) :
    List Nat × List SBDPath :=
  (sbdDrivers g membership clusterCount,
   clearControlPathsOp prevPaths ++
     (sbdCalculate g membership clusterCount).paths)

/-!
## SBD walk-packing invariants

These predicates do not correspond to code; they name the consistency
conditions `calculate()` maintains between `edgeUsed` and the residual
degree vectors, and between `edgeUsed` and the walks emitted so far.
-/

/-- The documented contract of `createControlPathFromNode`: the residual
degree vectors count the unused incident edges of each vertex. -/
structure DegOk (g : Graph) (used : Nat → Bool) (outD inD : Nat → Int) :
    Prop where
  out : ∀ v, outD v =
    (((g.incidentOut v).filter (fun e => used e = false)).length : Int)
  inn : ∀ v, inD v =
    (((g.incidentIn v).filter (fun e => used e = false)).length : Int)

/-- State invariant of the two walk-packing phases: degrees are
consistent with `edgeUsed`, an edge is used exactly when some emitted
walk consumed it, no edge is consumed twice, consumed edges are real,
and each emitted walk has its consumed-edge record. -/
structure SBDInv (g : Graph) (st : SBDState) : Prop where
  deg : DegOk g st.edgeUsed st.outD st.inD
  usedIff : ∀ e, st.edgeUsed e = true ↔ e ∈ st.pathEdges.flatten
  nodup : st.pathEdges.flatten.Nodup
  bound : ∀ e ∈ st.pathEdges.flatten, e < g.ecount
  plen : st.paths.length = st.pathEdges.length

/-!
## Concrete fixtures used by witnesses
-/

/-- The directed 3-cycle `0 → 1 → 2 → 0`. -/
def exCycle3 : Graph := { n := 3, edges := [(0, 1), (1, 2), (2, 0)] }

/-- The perfect matching of the 3-cycle (`0 matches 1`, `1 matches 2`,
`2 matches 0`). -/
def exMatchCycle3 : Nat → Int := fun v =>
  if v = 0 then 2 else if v = 1 then 0 else if v = 2 then 1 else -1

/-- The directed path `0 → 1 → 2 → 3`. -/
def exPath4 : Graph := { n := 4, edges := [(0, 1), (1, 2), (2, 3)] }

/-- The maximum matching of the directed path (every edge matched). -/
def exMatchPath4 : Nat → Int := fun v =>
  if v = 1 then 0 else if v = 2 then 1 else if v = 3 then 2 else -1

/-!
## Theorems
-/

namespace DirectedMatching

theorem consistent_empty : DirectedMatching.empty.consistent := by
  constructor
  · intro u v
    simp only [DirectedMatching.empty, List.not_mem_nil, false_iff]
    rintro ⟨hu, -, h⟩
    exact hu h.symm
  · intro u
    simp [DirectedMatching.empty]

theorem unmatch_no_op (M : DirectedMatching) : M.unmatch (-1) = M := by
  simp [DirectedMatching.unmatch]

theorem unmatch_of_unmatched (M : DirectedMatching) (v : Int)
    (hun : M.inMapping v = -1) : M.unmatch v = M := by
  unfold DirectedMatching.unmatch
  by_cases hv : v = -1
  · simp [hv]
  · simp [hv, hun]

theorem unmatch_eq_struct (M : DirectedMatching) (v : Int) (hv : v ≠ -1)
    (hm : M.inMapping v ≠ -1) :
    M.unmatch v =
      { inMapping := fun x => if x = v then -1 else M.inMapping x,
        outMapping := fun x =>
          if x = M.inMapping v then (M.outMapping (M.inMapping v)).erase v
          else M.outMapping x } := by
  unfold DirectedMatching.unmatch
  simp [hv, hm]

theorem setMatch_eq_struct (M : DirectedMatching) (u v : Int) (hv : v ≠ -1)
    (hu : u ≠ -1) (hne : M.inMapping v ≠ u) :
    M.setMatch u v =
      { inMapping := fun x => if x = v then u else (M.unmatch v).inMapping x,
        outMapping := fun x =>
          if x = u then (M.unmatch v).outMapping u ++ [v]
          else (M.unmatch v).outMapping x } := by
  unfold DirectedMatching.setMatch
  simp [hv, hu, hne]

theorem consistent_unmatch (M : DirectedMatching) (v : Int) (h : M.consistent) :
    (M.unmatch v).consistent := by
  by_cases hv : v = -1
  · rw [hv, unmatch_no_op]
    exact h
  by_cases hm : M.inMapping v = -1
  · rw [unmatch_of_unmatched M v hm]
    exact h
  obtain ⟨hiff, hnd⟩ := h
  rw [unmatch_eq_struct M v hv hm]
  constructor
  · intro a b
    simp only
    by_cases ha : a = M.inMapping v
    · rw [if_pos ha, (hnd _).mem_erase_iff, hiff]
      by_cases hbv : b = v
      · subst hbv
        rw [if_pos rfl]
        constructor
        · rintro ⟨hc, -⟩
          exact absurd rfl hc
        · rintro ⟨-, -, hc⟩
          exact absurd hc.symm (ha ▸ hm)
      · rw [if_neg hbv]
        subst ha
        constructor
        · rintro ⟨-, -, h2, h3⟩
          exact ⟨hm, h2, h3⟩
        · rintro ⟨h1, h2, h3⟩
          exact ⟨hbv, h1, h2, h3⟩
    · rw [if_neg ha, hiff]
      by_cases hbv : b = v
      · subst hbv
        rw [if_pos rfl]
        constructor
        · rintro ⟨-, -, hc⟩
          exact absurd hc (fun hc' => ha hc'.symm)
        · rintro ⟨h1, -, hc⟩
          exact absurd hc.symm h1
      · rw [if_neg hbv]
  · intro a
    simp only
    by_cases ha : a = M.inMapping v
    · rw [if_pos ha]
      exact (hnd _).erase v
    · rw [if_neg ha]
      exact hnd a

theorem not_mem_out_of_unmatched (M : DirectedMatching) (v : Int)
    (h : M.consistent) (hun : M.inMapping v = -1) (a : Int) :
    v ∉ M.outMapping a := by
  intro hmem
  obtain ⟨ha, -, hin⟩ := (h.1 a v).1 hmem
  exact ha (hun ▸ hin).symm

theorem unmatch_inMapping_self (M : DirectedMatching) (v : Int) (hv : v ≠ -1) :
    (M.unmatch v).inMapping v = -1 := by
  by_cases hm : M.inMapping v = -1
  · rw [unmatch_of_unmatched M v hm]
    exact hm
  · rw [unmatch_eq_struct M v hv hm]
    simp

theorem consistent_setMatch (M : DirectedMatching) (u v : Int) (h : M.consistent) :
    (M.setMatch u v).consistent := by
  by_cases hskip : v = -1 ∨ u = -1 ∨ M.inMapping v = u
  · unfold DirectedMatching.setMatch
    simpa [hskip] using h
  push_neg at hskip
  obtain ⟨hv, hu, hne⟩ := hskip
  have h1 : (M.unmatch v).consistent := consistent_unmatch M v h
  have h1v : (M.unmatch v).inMapping v = -1 := unmatch_inMapping_self M v hv
  have hnomem : ∀ a : Int, v ∉ (M.unmatch v).outMapping a :=
    not_mem_out_of_unmatched _ v h1 h1v
  rw [setMatch_eq_struct M u v hv hu hne]
  constructor
  · intro a b
    simp only
    by_cases ha : a = u
    · subst ha
      rw [if_pos rfl]
      simp only [List.mem_append, List.mem_singleton]
      by_cases hbv : b = v
      · subst hbv
        rw [if_pos rfl]
        exact iff_of_true (Or.inr rfl) ⟨hu, hv, rfl⟩
      · rw [if_neg hbv, h1.1]
        constructor
        · rintro (⟨h2, h3, h4⟩ | hc)
          · exact ⟨h2, h3, h4⟩
          · exact absurd hc hbv
        · rintro ⟨h2, h3, h4⟩
          exact Or.inl ⟨h2, h3, h4⟩
    · rw [if_neg ha, h1.1]
      by_cases hbv : b = v
      · subst hbv
        rw [if_pos rfl]
        constructor
        · rintro ⟨h2, -, h4⟩
          exact absurd h4 (h1v ▸ fun hc => h2 hc.symm)
        · rintro ⟨-, -, h4⟩
          exact absurd h4 (fun hc => ha hc.symm)
      · rw [if_neg hbv]
  · intro a
    simp only
    by_cases ha : a = u
    · rw [if_pos ha]
      have hperm : ((M.unmatch v).outMapping u ++ [v]).Perm
          (v :: (M.unmatch v).outMapping u) := List.perm_append_singleton v _
      rw [hperm.nodup_iff]
      exact List.nodup_cons.2 ⟨hnomem u, h1.2 u⟩
    · rw [if_neg ha]
      exact h1.2 a

theorem empty_setMatch_out (w : Int) :
    (DirectedMatching.empty.setMatch 0 0).outMapping w =
      if w = 0 then [0] else [] := by
  rw [setMatch_eq_struct DirectedMatching.empty 0 0 (by decide) (by decide) (by decide)]
  rw [unmatch_of_unmatched DirectedMatching.empty 0 rfl]
  simp only [DirectedMatching.empty]
  by_cases hw : w = 0
  · rw [if_pos hw, if_pos hw]
    rfl
  · rw [if_neg hw, if_neg hw]

/-- The claim that every `set_match`/`unmatch` step keeps all out-lists
of size at most one is false on the code: the structure is deliberately
one-to-many.  Starting from the empty matching, `setMatch 0 0` yields a
state where every out-list has length at most 1, but a further
`setMatch 0 1` grows `out(0)` to `[0, 1]` of length 2. -/
theorem matching_single_out_counterexample :
    (∀ w : Int, ((DirectedMatching.empty.setMatch 0 0).outMapping w).length ≤ 1) ∧
    ¬ ((((DirectedMatching.empty.setMatch 0 0).setMatch 0 1).outMapping 0).length ≤ 1) := by
  have hIn : (DirectedMatching.empty.setMatch 0 0).inMapping 1 = -1 := by
    rw [setMatch_eq_struct DirectedMatching.empty 0 0 (by decide) (by decide) (by decide)]
    rw [unmatch_of_unmatched DirectedMatching.empty 0 rfl]
    simp [DirectedMatching.empty]
  constructor
  · intro w
    rw [empty_setMatch_out]
    by_cases hw : w = 0
    · rw [if_pos hw]
      decide
    · rw [if_neg hw]
      decide
  · rw [setMatch_eq_struct _ 0 1 (by decide) (by decide) (by rw [hIn]; decide)]
    simp only [if_pos rfl]
    rw [unmatch_of_unmatched _ 1 hIn, empty_setMatch_out]
    decide

/-- C9 (amended).  The invariant actually maintained by the directed
matching is single-valuedness in the other direction: every vertex is
matched by at most one vertex — each `v` lies in the out-list of exactly
the `u` recorded by `in(v)`, out-lists never hold duplicates, and hence
the out-lists are mutually disjoint.  Both `set_match` and `unmatch`
preserve it. -/
theorem matching_consistency_preserved (M : DirectedMatching) (u v : Int)
    (h : M.consistent) :
    (M.setMatch u v).consistent ∧ (M.unmatch v).consistent ∧
    (∀ a b w : Int, w ∈ (M.setMatch u v).outMapping a →
      w ∈ (M.setMatch u v).outMapping b → a = b) := by
  refine ⟨consistent_setMatch M u v h, consistent_unmatch M v h, ?_⟩
  intro a b w hwa hwb
  have h2 := (consistent_setMatch M u v h).1
  obtain ⟨-, -, hina⟩ := (h2 a w).1 hwa
  obtain ⟨-, -, hinb⟩ := (h2 b w).1 hwb
  rw [← hina, ← hinb]

/-- Witness for C9 at a concrete state: the empty matching is consistent
and the preservation theorem applies to it. -/
theorem matching_consistency_preserved_witness :
    (DirectedMatching.empty.setMatch 0 1).consistent ∧
    (DirectedMatching.empty.unmatch 1).consistent :=
  ⟨(matching_consistency_preserved DirectedMatching.empty 0 1 consistent_empty).1,
   (matching_consistency_preserved DirectedMatching.empty 0 1 consistent_empty).2.1⟩

/-- C10.  Frame conditions of `unmatch(v)`: the call is a no-op when
`v = -1` or `v` is unmatched; otherwise it clears `in(v)`, removes `v`
(which occurs exactly once) from `out(in(v))`, and changes no other
in-entry and no other out-list. -/
theorem matching_unmatch_frame (M : DirectedMatching) (v : Int)
    (h : M.consistent) :
    (M.unmatch (-1) = M) ∧
    (M.inMapping v = -1 → M.unmatch v = M) ∧
    (v ≠ -1 → M.inMapping v ≠ -1 →
      ((M.unmatch v).inMapping v = -1 ∧
       (∀ x : Int, x ≠ v → (M.unmatch v).inMapping x = M.inMapping x) ∧
       (∀ w : Int, w ≠ M.inMapping v → (M.unmatch v).outMapping w = M.outMapping w) ∧
       v ∉ (M.unmatch v).outMapping (M.inMapping v) ∧
       (∀ y : Int, y ≠ v →
         (y ∈ (M.unmatch v).outMapping (M.inMapping v) ↔
          y ∈ M.outMapping (M.inMapping v))))) := by
  refine ⟨unmatch_no_op M, unmatch_of_unmatched M v, ?_⟩
  intro hv hm
  rw [unmatch_eq_struct M v hv hm]
  refine ⟨by simp, ?_, ?_, ?_, ?_⟩
  · intro x hx
    simp [hx]
  · intro w hw
    simp [hw]
  · simp only [if_pos rfl]
    intro hmem
    exact ((h.2 _).mem_erase_iff.1 hmem).1 rfl
  · intro y hy
    simp only [if_pos rfl, if_true]
    rw [(h.2 _).mem_erase_iff]
    simp [hy]

/-- Witness for C10 at a concrete state: `in(1) = 0` after
`setMatch 0 1`, and the frame theorem applies there. -/
theorem matching_unmatch_frame_witness :
    (DirectedMatching.empty.setMatch 0 1).unmatch (-1) =
      DirectedMatching.empty.setMatch 0 1 :=
  (matching_unmatch_frame (DirectedMatching.empty.setMatch 0 1) 1
    (consistent_setMatch DirectedMatching.empty 0 1 consistent_empty)).1

end DirectedMatching

theorem mem_matchOutList {n : Nat} {mIn : Nat → Int} {u v : Nat} :
    v ∈ matchOutList n mIn u ↔ (v < n ∧ mIn v = (u : Int)) := by
  simp [matchOutList, List.mem_filter, List.mem_range]

theorem natCast_ne_negOne (u : Nat) : (u : Int) ≠ -1 := by
  have := Int.natCast_nonneg u
  omega

theorem matchOutList_subsingleton {n : Nat} {mIn : Nat → Int}
    (hinj : ∀ v w, v < n → w < n → mIn v = mIn w → mIn v ≠ -1 → v = w)
    (u : Nat) :
    matchOutList n mIn u = [] ∨ ∃ v, matchOutList n mIn u = [v] := by
  have hnd : (matchOutList n mIn u).Nodup :=
    (List.nodup_range n).filter _
  cases h : matchOutList n mIn u with
  | nil => exact Or.inl rfl
  | cons x xs =>
    right
    refine ⟨x, ?_⟩
    have hx : x ∈ matchOutList n mIn u := by rw [h]; exact List.mem_cons_self x xs
    have hxs : xs = [] := by
      by_contra hne
      obtain ⟨y, hy⟩ := List.exists_mem_of_ne_nil xs hne
      have hy' : y ∈ matchOutList n mIn u := by
        rw [h]; exact List.mem_cons_of_mem x hy
      obtain ⟨hxlt, hxm⟩ := mem_matchOutList.1 hx
      obtain ⟨hylt, hym⟩ := mem_matchOutList.1 hy'
      have hxy : x = y := hinj x y hxlt hylt (by rw [hxm, hym])
        (by rw [hxm]; exact natCast_ne_negOne u)
      rw [h] at hnd
      exact (List.nodup_cons.1 hnd).1 (hxy ▸ hy)
    rw [hxs]

theorem getLastD_eq_getLast {l : List Nat} (h : l ≠ []) :
    l.getLastD 0 = l.getLast h := by
  rw [List.getLastD_eq_getLast?, List.getLast?_eq_getLast _ h]
  rfl

theorem getLastD_mem {l : List Nat} (h : l ≠ []) : l.getLastD 0 ∈ l := by
  rw [getLastD_eq_getLast h]
  exact List.getLast_mem h

theorem filter_markUsed_length {used : Nat → Bool} {u : Nat}
    (hufree : used u = false) :
    ∀ (l : List Nat), u ∈ l → l.Nodup →
      ((l.filter (fun v => markUsed used u v = false)).length) + 1 =
        (l.filter (fun v => used v = false)).length := by
  intro l
  induction l with
  | nil => intro h; exact absurd h (List.not_mem_nil u)
  | cons a l ih =>
    intro hmem hnd
    obtain ⟨hnotmem, hnd'⟩ := List.nodup_cons.1 hnd
    by_cases hau : a = u
    · subst hau
      have h2 : l.filter (fun v => decide (markUsed used a v = false)) =
          l.filter (fun v => decide (used v = false)) := by
        apply List.filter_congr
        intro x hx
        have hxa : x ≠ a := fun hc => hnotmem (hc ▸ hx)
        simp [markUsed, hxa]
      have hm : markUsed used a a = true := by simp [markUsed]
      rw [List.filter_cons, List.filter_cons, h2, hm, hufree]
      simp
    · have hmem' : u ∈ l := by
        rcases List.mem_cons.1 hmem with h | h
        · exact absurd h.symm hau
        · exact h
      have h1 : markUsed used u a = used a := by simp [markUsed, hau]
      have ihl := ih hmem' hnd'
      rw [List.filter_cons, List.filter_cons, h1]
      cases hua : used a with
      | false =>
        simp at ihl ⊢
        omega
      | true =>
        simp at ihl ⊢
        omega

theorem unusedCount_markUsed {n : Nat} {used : Nat → Bool} {u : Nat}
    (hlt : u < n) (hufree : used u = false) :
    unusedCount n (markUsed used u) + 1 = unusedCount n used :=
  filter_markUsed_length hufree (List.range n) (List.mem_range.2 hlt)
    (List.nodup_range n)

theorem linkedTo_append {mIn : Nat → Int} {l : List Nat} {v w : Nat}
    (h1 : linkedTo mIn l v) (h2 : mIn v = (w : Int)) :
    linkedTo mIn (l ++ [v]) w := by
  induction l with
  | nil => exact h2
  | cons a rest ih =>
    cases rest with
    | nil => exact ⟨h1, h2⟩
    | cons b rest2 => exact ⟨h1.1, ih h1.2⟩

theorem linkedTo_getLast {mIn : Nat → Int} :
    ∀ {l : List Nat} {v : Nat}, l ≠ [] → linkedTo mIn l v →
      mIn (l.getLastD 0) = (v : Int) := by
  intro l
  induction l with
  | nil => intro v h; exact absurd rfl h
  | cons a rest ih =>
    intro v _ hl
    cases rest with
    | nil => exact hl
    | cons b rest2 =>
      have : (a :: b :: rest2).getLastD 0 = (b :: rest2).getLastD 0 := by
        simp [List.getLastD]
      rw [this]
      exact ih (by simp) hl.2

theorem linkedTo_pred_of_mem_tail {mIn : Nat → Int} :
    ∀ {xs : List Nat} (x : Nat) {v c : Nat}, linkedTo mIn (x :: xs) v →
      c ∈ xs → ∃ p ∈ x :: xs, mIn p = (c : Int) := by
  intro xs
  induction xs with
  | nil => intro x v c _ h; exact absurd h (List.not_mem_nil c)
  | cons b rest2 ih =>
    intro x v c hl hc
    rcases List.mem_cons.1 hc with rfl | hc'
    · exact ⟨x, List.mem_cons_self x _, hl.1⟩
    · obtain ⟨p, hp, hpm⟩ := ih b hl.2 hc'
      exact ⟨p, List.mem_cons_of_mem x hp, hpm⟩

theorem linkedTo_head_of_mem {n : Nat} {mIn : Nat → Int}
    (hinj : ∀ v w, v < n → w < n → mIn v = mIn w → mIn v ≠ -1 → v = w) :
    ∀ {l : List Nat} {v : Nat}, l.Nodup → (∀ x ∈ l, x < n) → v < n →
      linkedTo mIn l v → v ∈ l → l.headD 0 = v := by
  intro l
  induction l with
  | nil => intro v _ _ _ _ h; exact absurd h (List.not_mem_nil v)
  | cons a rest ih =>
    intro v hnd hlt hv hl hmem
    rcases List.mem_cons.1 hmem with rfl | hmem'
    · rfl
    cases rest with
    | nil => exact absurd hmem' (List.not_mem_nil v)
    | cons b rest2 =>
      have hhead : (b :: rest2).headD 0 = v :=
        ih (List.nodup_cons.1 hnd).2
          (fun x hx => hlt x (List.mem_cons_of_mem a hx)) hv hl.2 hmem'
      have hvb : v = b := hhead.symm
      have hlast : mIn ((b :: rest2).getLastD 0) = (v : Int) :=
        linkedTo_getLast (by simp) hl.2
      have halast : a = (b :: rest2).getLastD 0 := by
        apply hinj a _ (hlt a (List.mem_cons_self a _))
        · apply hlt
          apply List.mem_cons_of_mem a
          exact getLastD_mem (by simp)
        · rw [hlast, hl.1, hvb]
        · rw [hl.1]
          exact natCast_ne_negOne b
      have hmemlast : (b :: rest2).getLastD 0 ∈ b :: rest2 :=
        getLastD_mem (by simp)
      exact absurd (halast ▸ hmemlast) (List.nodup_cons.1 hnd).1

theorem linkedTo_closed_pred {n : Nat} {mIn : Nat → Int}
    (hinj : ∀ v w, v < n → w < n → mIn v = mIn w → mIn v ≠ -1 → v = w)
    {l : List Nat} (hl : linkedTo mIn l (l.headD 0)) (hne : l ≠ [])
    (hlt : ∀ x ∈ l, x < n) {w c : Nat} (hw : w < n) (hwm : mIn w = (c : Int))
    (hc : c ∈ l) : w ∈ l := by
  obtain ⟨p, hp, hpm⟩ : ∃ p ∈ l, mIn p = (c : Int) := by
    cases l with
    | nil => exact absurd rfl hne
    | cons a rest =>
      rcases List.mem_cons.1 hc with rfl | hc'
      · refine ⟨(c :: rest).getLastD 0, ?_, ?_⟩
        · exact getLastD_mem (by simp)
        · have := linkedTo_getLast (l := c :: rest) (by simp) hl
          simpa using this
      · exact linkedTo_pred_of_mem_tail a hl hc'
  have : w = p := hinj w p hw (hlt p hp) (by rw [hwm, hpm])
    (by rw [hwm]; exact natCast_ne_negOne c)
  exact this ▸ hp

theorem tipOf_concat (l : List Nat) (a : Nat) : tipOf (l ++ [a]) = a := by
  simp [tipOf]

theorem tipOf_mem {l : List Nat} (h : l ≠ []) : tipOf l ∈ l := getLastD_mem h

theorem mem_iff_dropLast_or_tip {l : List Nat} (h : l ≠ []) (x : Nat) :
    x ∈ l ↔ x ∈ l.dropLast ∨ x = tipOf l := by
  conv_lhs => rw [← List.dropLast_append_getLast h]
  rw [List.mem_append, List.mem_singleton, tipOf, getLastD_eq_getLast h]

theorem mem_of_mem_dropLast {l : List Nat} {x : Nat} (h : x ∈ l.dropLast) :
    x ∈ l := by
  have hne : l ≠ [] := by
    intro hc
    rw [hc] at h
    exact (List.not_mem_nil x) h
  exact (mem_iff_dropLast_or_tip hne x).2 (Or.inl h)

theorem stemLoop_succ_nil {n : Nat} {mIn : Nat → Int} {fuel : Nat}
    {st : StemState} (h : st.queue = []) :
    stemLoop n mIn (fuel + 1) st = st := by
  cases st with
  | mk q used vts paths nid =>
    simp only at h
    subst h
    rfl

theorem stemLoop_succ_cons {n : Nat} {mIn : Nat → Int} {fuel : Nat}
    {st : StemState} {sid : Nat} {nodes : List Nat} {rest : List (Nat × List Nat)}
    (h : st.queue = (sid, nodes) :: rest) :
    stemLoop n mIn (fuel + 1) st =
      (match matchOutList n mIn (tipOf nodes) with
       | [] =>
         stemLoop n mIn fuel
           { queue := rest, used := markUsed st.used (tipOf nodes),
             vts := fun x => if x = tipOf nodes then some sid else st.vts x,
             paths := st.paths ++ [(sid, nodes)], nextId := st.nextId }
       | w :: ws =>
         stemLoop n mIn fuel
           { queue := rest ++
               (ws.enum.map (fun p => (st.nextId + p.1, nodes ++ [p.2])))
               ++ [(sid, nodes ++ [w])],
             used := markUsed st.used (tipOf nodes),
             vts := fun x => if x = tipOf nodes then some sid else st.vts x,
             paths := st.paths, nextId := st.nextId + ws.length }) := by
  cases st with
  | mk q used vts paths nid =>
    simp only at h
    subst h
    rfl

theorem stemLoop_succ_emit {n : Nat} {mIn : Nat → Int} {fuel : Nat}
    {st : StemState} {sid : Nat} {nodes : List Nat} {rest : List (Nat × List Nat)}
    (h : st.queue = (sid, nodes) :: rest)
    (ho : matchOutList n mIn (tipOf nodes) = []) :
    stemLoop n mIn (fuel + 1) st =
      stemLoop n mIn fuel
        { queue := rest, used := markUsed st.used (tipOf nodes),
          vts := fun x => if x = tipOf nodes then some sid else st.vts x,
          paths := st.paths ++ [(sid, nodes)], nextId := st.nextId } := by
  rw [stemLoop_succ_cons h, ho]

theorem stemLoop_succ_extend {n : Nat} {mIn : Nat → Int} {fuel : Nat}
    {st : StemState} {sid : Nat} {nodes : List Nat} {rest : List (Nat × List Nat)}
    {w : Nat} {ws : List Nat}
    (h : st.queue = (sid, nodes) :: rest)
    (ho : matchOutList n mIn (tipOf nodes) = w :: ws) :
    stemLoop n mIn (fuel + 1) st =
      stemLoop n mIn fuel
        { queue := rest ++ (ws.enum.map (fun p => (st.nextId + p.1, nodes ++ [p.2])))
            ++ [(sid, nodes ++ [w])],
          used := markUsed st.used (tipOf nodes),
          vts := fun x => if x = tipOf nodes then some sid else st.vts x,
          paths := st.paths, nextId := st.nextId + ws.length } := by
  rw [stemLoop_succ_cons h, ho]

theorem stemLoop_spec {n : Nat} {mIn : Nat → Int} {roots : List Nat}
    (hinj : ∀ v w, v < n → w < n → mIn v = mIn w → mIn v ≠ -1 → v = w) :
    ∀ fuel st, StemInv n mIn roots st → unusedCount n st.used < fuel →
      ((stemLoop n mIn fuel st).queue = [] ∧
       StemInv n mIn roots (stemLoop n mIn fuel st)) ∧
      ((∀ v, st.used v = true → (stemLoop n mIn fuel st).used v = true) ∧
       (∀ v, (coveredList st).count v ≤
         (coveredList (stemLoop n mIn fuel st)).count v)) := by
  intro fuel
  induction fuel with
  | zero => intro st _ hf; omega
  | succ fuel ih =>
    intro st hInv hf
    rcases hInv.qshape with hq | ⟨sid, nodes, hq, hA⟩
    · rw [stemLoop_succ_nil hq]
      exact ⟨⟨hq, hInv⟩, fun v h => h, fun v => le_refl _⟩
    · have hne := hA.ne
      have htip_mem : tipOf nodes ∈ nodes := tipOf_mem hne
      have htip_lt : tipOf nodes < n := hA.lt _ htip_mem
      have hcov : coveredList st = (st.paths.map Prod.snd).flatten ++ nodes := by
        simp [coveredList, hq]
      have hatip : activeTip st = some (tipOf nodes) := by
        simp [activeTip, hq]
      have hmeasure : unusedCount n (markUsed st.used (tipOf nodes)) + 1 =
          unusedCount n st.used :=
        unusedCount_markUsed htip_lt hA.tipFree
      have hback1 : ∀ w, markUsed st.used (tipOf nodes) w = true →
          mIn w = -1 ∨ ∃ p, p < n ∧ mIn w = (p : Int) ∧
            markUsed st.used (tipOf nodes) p = true := by
        intro w hw
        by_cases hwt : w = tipOf nodes
        · subst hwt
          rcases hA.tipBack with ⟨h1, -⟩ | ⟨p, hp, hpm⟩
          · exact Or.inl h1
          · exact Or.inr ⟨p, hA.lt p (mem_of_mem_dropLast hp), hpm,
              by simp [markUsed, hA.preUsed p hp]⟩
        · have hw' : st.used w = true := by
            simpa [markUsed, hwt] using hw
          rcases hInv.backClosed w hw' with h1 | ⟨p, hp1, hp2, hp3⟩
          · exact Or.inl h1
          · exact Or.inr ⟨p, hp1, hp2, by simp [markUsed, hp3]⟩
      have hroots1 : ∀ w, markUsed st.used (tipOf nodes) w = true →
          mIn w = -1 → w ∈ roots := by
        intro w hw hwm
        by_cases hwt : w = tipOf nodes
        · subst hwt
          rcases hA.tipBack with ⟨-, h2⟩ | ⟨p, -, hpm⟩
          · exact h2
          · exact absurd hwm (by rw [hpm]; exact natCast_ne_negOne p)
        · exact hInv.rootsOnly w (by simpa [markUsed, hwt] using hw) hwm
      have husedLt1 : ∀ v, markUsed st.used (tipOf nodes) v = true → v < n := by
        intro v hv
        by_cases hvt : v = tipOf nodes
        · exact hvt ▸ htip_lt
        · exact hInv.usedLt v (by simpa [markUsed, hvt] using hv)
      cases ho : matchOutList n mIn (tipOf nodes) with
      | nil =>
        rw [stemLoop_succ_emit hq ho]
        set st1 : StemState :=
          { queue := [], used := markUsed st.used (tipOf nodes),
            vts := fun x => if x = tipOf nodes then some sid else st.vts x,
            paths := st.paths ++ [(sid, nodes)], nextId := st.nextId } with hst1
        have hcov1 : coveredList st1 = (st.paths.map Prod.snd).flatten ++ nodes := by
          simp [coveredList, st1]
        have hatip1 : activeTip st1 = none := by simp [activeTip, st1]
        have hInv1 : StemInv n mIn roots st1 := by
          refine ⟨Or.inl rfl, husedLt1, ?_, ?_, hback1, hroots1⟩
          · intro v
            have hold := hInv.counts v
            rw [hcov, hatip] at hold
            rw [hcov1, hatip1, hold]
            by_cases hvt : v = tipOf nodes
            · subst hvt
              rw [if_pos (Or.inr rfl), if_pos]
              left
              simp [markUsed, st1]
            · have hcond : (st.used v = true ∨
                  some (tipOf nodes) = some v) ↔
                  (st1.used v = true ∨ (none : Option Nat) = some v) := by
                constructor
                · rintro (h | h)
                  · left; simp [markUsed, st1, h]
                  · exact absurd (Option.some.inj h).symm hvt
                · rintro (h | h)
                  · left
                    simpa [markUsed, st1, hvt] using h
                  · exact absurd h (by simp)
              rw [if_congr hcond rfl rfl]
          · intro u w hu hw
            by_cases hut : u = tipOf nodes
            · subst hut
              rw [ho] at hw
              exact absurd hw (List.not_mem_nil w)
            · have hu' : st.used u = true := by
                simpa [markUsed, st1, hut] using hu
              rcases hInv.outClosed u w hu' hw with h1 | h2
              · left; simp [markUsed, st1, h1]
              · rw [hatip] at h2
                left
                have hwt : w = tipOf nodes := (Option.some.inj h2).symm
                simp [markUsed, st1, hwt]
        have hf1 : unusedCount n st1.used < fuel := by
          have he : st1.used = markUsed st.used (tipOf nodes) := rfl
          rw [he]
          omega
        obtain ⟨⟨hq', hInv'⟩, hmono, hcnt⟩ := ih st1 hInv1 hf1
        refine ⟨⟨hq', hInv'⟩, ?_, ?_⟩
        · intro v hv
          apply hmono
          by_cases hvt : v = tipOf nodes
          · simp [markUsed, st1, hvt]
          · simp [markUsed, st1, hvt, hv]
        · intro v
          have he : (coveredList st).count v = (coveredList st1).count v := by
            rw [hcov, hcov1]
          rw [he]
          exact hcnt v
      | cons w ws =>
        have hws : ws = [] := by
          rcases matchOutList_subsingleton hinj (tipOf nodes) with h0 | ⟨v, hv⟩
          · rw [ho] at h0; exact absurd h0 (by simp)
          · rw [ho] at hv
            exact (List.cons.injEq _ _ _ _ ▸ hv).2
        subst hws
        have hw_mem : w ∈ matchOutList n mIn (tipOf nodes) := by
          rw [ho]; exact List.mem_cons_self w []
        obtain ⟨hw_lt, hw_match⟩ := mem_matchOutList.1 hw_mem
        have hw_ne_tip : w ≠ tipOf nodes := by
          intro hc
          rw [hc] at hw_match
          rcases hA.tipBack with ⟨h1, -⟩ | ⟨p, hp, hpm⟩
          · rw [hw_match] at h1
            exact natCast_ne_negOne _ h1
          · rw [hw_match] at hpm
            have hpt : tipOf nodes = p := by exact_mod_cast hpm
            have hu := hA.preUsed p hp
            rw [← hpt, hA.tipFree] at hu
            exact Bool.false_ne_true hu
        have hw_free : st.used w = false := by
          cases hcu : st.used w
          · rfl
          · exfalso
            rcases hInv.backClosed w hcu with h1 | ⟨p, hp1, hp2, hp3⟩
            · rw [hw_match] at h1
              exact natCast_ne_negOne _ h1
            · rw [hw_match] at hp2
              have hpt : tipOf nodes = p := by exact_mod_cast hp2
              rw [← hpt, hA.tipFree] at hp3
              exact Bool.false_ne_true hp3
        rw [stemLoop_succ_extend hq ho]
        simp only [List.enum_nil, List.map_nil, List.nil_append,
          List.length_nil, Nat.add_zero, List.append_nil]
        set st2 : StemState :=
          { queue := [(sid, nodes ++ [w])],
            used := markUsed st.used (tipOf nodes),
            vts := fun x => if x = tipOf nodes then some sid else st.vts x,
            paths := st.paths, nextId := st.nextId } with hst2
        have htip2 : tipOf (nodes ++ [w]) = w := tipOf_concat nodes w
        have hdrop2 : (nodes ++ [w]).dropLast = nodes := by simp
        have hA2 : ActiveOk n mIn roots st2.used (nodes ++ [w]) := by
          refine ⟨by simp, ?_, ?_, ?_, ?_⟩
          · intro x hx
            rcases List.mem_append.1 hx with h1 | h2
            · exact hA.lt x h1
            · rw [List.mem_singleton.1 h2]
              exact hw_lt
          · intro x hx
            rw [hdrop2] at hx
            rcases (mem_iff_dropLast_or_tip hne x).1 hx with h1 | h2
            · simp [markUsed, st2, hA.preUsed x h1]
            · simp [markUsed, st2, h2]
          · rw [htip2]
            simp [markUsed, st2, hw_ne_tip, hw_free]
          · right
            rw [htip2, hdrop2]
            exact ⟨tipOf nodes, htip_mem, hw_match⟩
        have hcov2 : coveredList st2 =
            (st.paths.map Prod.snd).flatten ++ (nodes ++ [w]) := by
          simp [coveredList, st2]
        have hatip2 : activeTip st2 = some w := by
          simp [activeTip, st2, htip2]
        have hInv2 : StemInv n mIn roots st2 := by
          refine ⟨Or.inr ⟨sid, nodes ++ [w], rfl, hA2⟩, husedLt1, ?_, ?_,
            hback1, hroots1⟩
          · intro v
            have hold := hInv.counts v
            rw [hcov, hatip] at hold
            rw [hcov2, hatip2]
            have hsplit :
                ((st.paths.map Prod.snd).flatten ++ (nodes ++ [w])).count v =
                ((st.paths.map Prod.snd).flatten ++ nodes).count v +
                  List.count v [w] := by
              simp only [List.count_append]
              omega
            rw [hsplit, hold]
            by_cases hvw : v = w
            · subst hvw
              rw [List.count_singleton]
              have hz : ¬ (st.used v = true ∨ some (tipOf nodes) = some v) := by
                rintro (h | h)
                · rw [hw_free] at h
                  exact Bool.false_ne_true h
                · exact hw_ne_tip (Option.some.inj h).symm
              rw [if_neg hz, if_pos (Or.inr rfl)]
              simp
            · have h0 : List.count v [w] = 0 := by
                simp [hvw]
              have hcond : (st.used v = true ∨ some (tipOf nodes) = some v) ↔
                  (st2.used v = true ∨ some w = some v) := by
                constructor
                · rintro (h | h)
                  · left; simp [markUsed, st2, h]
                  · left
                    have hvt : v = tipOf nodes := (Option.some.inj h).symm
                    simp [markUsed, st2, hvt]
                · rintro (h | h)
                  · by_cases hvt : v = tipOf nodes
                    · right; rw [hvt]
                    · left; simpa [markUsed, st2, hvt] using h
                  · exact absurd (Option.some.inj h).symm hvw
              rw [h0, Nat.add_zero, if_congr hcond rfl rfl]
          · intro u w' hu hw'
            by_cases hut : u = tipOf nodes
            · subst hut
              rw [ho] at hw'
              have hww : w' = w := by simpa using hw'
              right
              rw [hatip2, hww]
            · have hu' : st.used u = true := by
                simpa [markUsed, st2, hut] using hu
              rcases hInv.outClosed u w' hu' hw' with h1 | h2
              · left; simp [markUsed, st2, h1]
              · rw [hatip] at h2
                left
                have hwt : w' = tipOf nodes := (Option.some.inj h2).symm
                simp [markUsed, st2, hwt]
        have hf2 : unusedCount n st2.used < fuel := by
          have he : st2.used = markUsed st.used (tipOf nodes) := rfl
          rw [he]
          omega
        obtain ⟨⟨hq', hInv'⟩, hmono, hcnt⟩ := ih st2 hInv2 hf2
        refine ⟨⟨hq', hInv'⟩, ?_, ?_⟩
        · intro v hv
          apply hmono
          by_cases hvt : v = tipOf nodes
          · simp [markUsed, st2, hvt]
          · simp [markUsed, st2, hvt, hv]
        · intro v
          refine le_trans ?_ (hcnt v)
          rw [hcov, hcov2]
          simp only [List.count_append]
          omega

theorem unusedCount_le {n : Nat} (used : Nat → Bool) : unusedCount n used ≤ n := by
  have := List.length_filter_le (fun v => decide (used v = false)) (List.range n)
  simpa [unusedCount] using this

theorem stemsFold_spec {n : Nat} {mIn : Nat → Int}
    (hinj : ∀ v w, v < n → w < n → mIn v = mIn w → mIn v ≠ -1 → v = w) :
    ∀ (rem processed : List Nat) (st : StemState),
      (processed ++ rem).Nodup →
      (∀ d ∈ processed ++ rem, d < n ∧ mIn d = -1) →
      st.queue = [] → StemInv n mIn processed st →
      (∀ d ∈ processed, st.used d = true) →
      ((rem.foldl
          (fun st d =>
            stemLoop n mIn (n + 1)
              { queue := [(st.nextId, [d])], used := st.used, vts := st.vts,
                paths := st.paths, nextId := st.nextId + 1 }) st).queue = [] ∧
       StemInv n mIn (processed ++ rem)
         (rem.foldl
           (fun st d =>
             stemLoop n mIn (n + 1)
               { queue := [(st.nextId, [d])], used := st.used, vts := st.vts,
                 paths := st.paths, nextId := st.nextId + 1 }) st)) ∧
      (∀ d ∈ processed ++ rem,
        (rem.foldl
          (fun st d =>
            stemLoop n mIn (n + 1)
              { queue := [(st.nextId, [d])], used := st.used, vts := st.vts,
                paths := st.paths, nextId := st.nextId + 1 }) st).used d = true) := by
  intro rem
  induction rem with
  | nil =>
    intro processed st hnd hdlt hq hInv hused
    simp only [List.foldl_nil, List.append_nil] at *
    exact ⟨⟨hq, hInv⟩, hused⟩
  | cons d rem' ih =>
    intro processed st hnd hdlt hq hInv hused
    simp only [List.foldl_cons]
    have hd_mem : d ∈ processed ++ d :: rem' := by
      simp
    obtain ⟨hd_lt, hd_m⟩ := hdlt d hd_mem
    have hd_not_proc : d ∉ processed := by
      intro hc
      have h1 := List.disjoint_of_nodup_append hnd
      exact h1 hc (by simp)
    have hd_free : st.used d = false := by
      cases hc : st.used d
      · rfl
      · exact absurd (hInv.rootsOnly d hc hd_m) hd_not_proc
    set stInit : StemState :=
      { queue := [(st.nextId, [d])], used := st.used, vts := st.vts,
        paths := st.paths, nextId := st.nextId + 1 } with hstInit
    have htipd : tipOf [d] = d := rfl
    have hcovS : coveredList st = (st.paths.map Prod.snd).flatten := by
      simp [coveredList, hq]
    have hatipS : activeTip st = none := by simp [activeTip, hq]
    have hcovI : coveredList stInit = (st.paths.map Prod.snd).flatten ++ [d] := by
      simp [coveredList, stInit]
    have hatipI : activeTip stInit = some d := by
      simp [activeTip, stInit, htipd]
    have hInvInit : StemInv n mIn (processed ++ [d]) stInit := by
      refine ⟨Or.inr ⟨st.nextId, [d], rfl, ?_⟩, hInv.usedLt, ?_, ?_, ?_, ?_⟩
      · refine ⟨by simp, ?_, by simp, ?_, Or.inl ⟨htipd ▸ hd_m, ?_⟩⟩
        · intro x hx
          rw [List.mem_singleton.1 hx]
          exact hd_lt
        · rw [htipd]
          exact hd_free
        · rw [htipd]
          simp
      · intro v
        have hold := hInv.counts v
        rw [hcovS, hatipS] at hold
        rw [hcovI, hatipI, List.count_append, hold]
        by_cases hvd : v = d
        · subst hvd
          have hz : ¬ (st.used v = true ∨ (none : Option Nat) = some v) := by
            rintro (h | h)
            · rw [hd_free] at h
              exact Bool.false_ne_true h
            · exact Option.noConfusion h
          rw [if_neg hz, if_pos (Or.inr rfl)]
          simp
        · have h0 : List.count v [d] = 0 := by simp [hvd]
          have hcond : (st.used v = true ∨ (none : Option Nat) = some v) ↔
              (stInit.used v = true ∨ some d = some v) := by
            constructor
            · rintro (h | h)
              · exact Or.inl h
              · exact Option.noConfusion h
            · rintro (h | h)
              · exact Or.inl h
              · exact absurd (Option.some.inj h).symm hvd
          rw [h0, Nat.add_zero, if_congr hcond rfl rfl]
      · intro u w hu hw
        rcases hInv.outClosed u w hu hw with h1 | h2
        · exact Or.inl h1
        · rw [hatipS] at h2
          exact Option.noConfusion h2
      · exact hInv.backClosed
      · intro w hw hwm
        exact List.mem_append_left [d] (hInv.rootsOnly w hw hwm)
    have hfInit : unusedCount n stInit.used < n + 1 := by
      have : unusedCount n stInit.used ≤ n := unusedCount_le _
      omega
    obtain ⟨⟨hq1, hInv1⟩, hmono1, hcnt1⟩ :=
      stemLoop_spec hinj (n + 1) stInit hInvInit hfInit
    set st1 := stemLoop n mIn (n + 1) stInit with hst1
    have hd_used1 : st1.used d = true := by
      have hc0 : (coveredList stInit).count d = 1 := by
        rw [hInvInit.counts d, hatipI, if_pos (Or.inr rfl)]
      have hc1 : 1 ≤ (coveredList st1).count d := by
        rw [← hc0]
        exact hcnt1 d
      have hcc := hInv1.counts d
      have hatip1 : activeTip st1 = none := by simp [activeTip, hq1]
      rw [hatip1] at hcc
      cases hcu : st1.used d
      · rw [hcu] at hcc
        simp at hcc
        omega
      · rfl
    have hnd' : ((processed ++ [d]) ++ rem').Nodup := by
      rw [List.append_assoc]
      simpa using hnd
    have hdlt' : ∀ x ∈ (processed ++ [d]) ++ rem', x < n ∧ mIn x = -1 := by
      intro x hx
      apply hdlt
      rw [List.append_assoc] at hx
      simpa using hx
    have hused' : ∀ x ∈ processed ++ [d], st1.used x = true := by
      intro x hx
      rcases List.mem_append.1 hx with h1 | h2
      · exact hmono1 x (hused x h1)
      · rw [List.mem_singleton.1 h2]
        exact hd_used1
    have := ih (processed ++ [d]) st1 hnd' hdlt' hq1 hInv1 hused'
    rw [List.append_assoc] at this
    simpa using this

theorem liuDrivers_nodup (n : Nat) (mIn : Nat → Int) :
    (liuDrivers n mIn).Nodup :=
  (List.nodup_range n).filter _

theorem mem_liuDrivers {n : Nat} {mIn : Nat → Int} {v : Nat} :
    v ∈ liuDrivers n mIn ↔ (v < n ∧ mIn v = -1) := by
  simp [liuDrivers, List.mem_filter, List.mem_range]

theorem stemsPhase_spec {n : Nat} {mIn : Nat → Int}
    (hinj : ∀ v w, v < n → w < n → mIn v = mIn w → mIn v ≠ -1 → v = w) :
    (∀ v, (((stemsPhase n mIn (liuDrivers n mIn)).paths.map Prod.snd).flatten).count v =
      if (stemsPhase n mIn (liuDrivers n mIn)).used v = true then 1 else 0) ∧
    (∀ v, (stemsPhase n mIn (liuDrivers n mIn)).used v = true → v < n) ∧
    OutClosed n mIn (stemsPhase n mIn (liuDrivers n mIn)).used ∧
    RootsUsed n mIn (stemsPhase n mIn (liuDrivers n mIn)).used := by
  have hInv0 : StemInv n mIn []
      (StemState.mk [] (fun _ => false) (fun _ => none) [] 0) := by
    refine ⟨Or.inl rfl, ?_, ?_, ?_, ?_, ?_⟩
    · intro v h
      exact absurd h (by simp)
    · intro v
      simp [coveredList, activeTip]
    · intro u w h
      exact absurd h (by simp)
    · intro w h
      exact absurd h (by simp)
    · intro w h
      exact absurd h (by simp)
  have h := stemsFold_spec hinj (liuDrivers n mIn) [] _
    (by simpa using liuDrivers_nodup n mIn)
    (by
      intro d hd
      simp only [List.nil_append] at hd
      exact mem_liuDrivers.1 hd)
    rfl hInv0 (by intro d hd; exact absurd hd (by simp))
  simp only [List.nil_append] at h
  obtain ⟨⟨hq, hInv⟩, hused⟩ := h
  have heq : stemsPhase n mIn (liuDrivers n mIn) =
      (liuDrivers n mIn).foldl
        (fun st d =>
          stemLoop n mIn (n + 1)
            { queue := [(st.nextId, [d])], used := st.used, vts := st.vts,
              paths := st.paths, nextId := st.nextId + 1 })
        { queue := [], used := fun _ => false, vts := fun _ => none,
          paths := [], nextId := 0 } := rfl
  rw [heq]
  set sp := (liuDrivers n mIn).foldl
    (fun st d =>
      stemLoop n mIn (n + 1)
        { queue := [(st.nextId, [d])], used := st.used, vts := st.vts,
          paths := st.paths, nextId := st.nextId + 1 })
    { queue := [], used := fun _ => false, vts := fun _ => none,
      paths := [], nextId := 0 } with hsp
  refine ⟨?_, hInv.usedLt, ?_, ?_⟩
  · intro v
    have hc := hInv.counts v
    have hcov : coveredList sp = (sp.paths.map Prod.snd).flatten := by
      simp [coveredList, hq]
    have hatip : activeTip sp = none := by simp [activeTip, hq]
    rw [hcov, hatip] at hc
    rw [hc]
    have hcond : (sp.used v = true ∨ (none : Option Nat) = some v) ↔
        (sp.used v = true) := by
      constructor
      · rintro (h | h)
        · exact h
        · exact Option.noConfusion h
      · exact Or.inl
    rw [if_congr hcond rfl rfl]
  · intro u w hu hwlt hwm
    have hmem : w ∈ matchOutList n mIn u := mem_matchOutList.2 ⟨hwlt, hwm⟩
    rcases hInv.outClosed u w hu hmem with h1 | h2
    · exact h1
    · have hatip : activeTip sp = none := by simp [activeTip, hq]
      rw [hatip] at h2
      exact Option.noConfusion h2
  · intro v hvlt hvm
    exact hused v (mem_liuDrivers.2 ⟨hvlt, hvm⟩)

theorem budChain_succ (mIn : Nat → Int) (fuel : Nat) (v : Nat)
    (used : Nat → Bool) :
    budChain mIn (fuel + 1) v used =
      if used v then (some [], used)
      else
        if mIn v = -1 then (none, markUsed used v)
        else
          ((budChain mIn fuel (mIn v).toNat (markUsed used v)).1.map
            (fun rest => v :: rest),
           (budChain mIn fuel (mIn v).toNat (markUsed used v)).2) := rfl

theorem popBackIfClosed_of_nodup {l : List Nat} (h : l.Nodup) :
    popBackIfClosed l = l := by
  unfold popBackIfClosed
  rw [if_neg]
  rintro ⟨h1, h2⟩
  cases l with
  | nil => simp at h1
  | cons a t =>
    cases t with
    | nil => simp at h1
    | cons b t2 =>
      have hh : (a :: b :: t2).head? = some a := rfl
      have hl : (a :: b :: t2).getLast? = some ((b :: t2).getLast (by simp)) := by
        rw [List.getLast?_eq_getLast _ (by simp)]
        congr 1
      rw [hh, hl] at h2
      have : a = (b :: t2).getLast (by simp) := Option.some.inj h2
      have hmem : a ∈ b :: t2 := this ▸ List.getLast_mem _
      exact (List.nodup_cons.1 h).1 hmem

theorem budChain_spec {n : Nat} {mIn : Nat → Int}
    (hrange : ∀ v, v < n → mIn v = -1 ∨ (0 ≤ mIn v ∧ mIn v < (n : Int)))
    (hinj : ∀ v w, v < n → w < n → mIn v = mIn w → mIn v ≠ -1 → v = w)
    {used0 : Nat → Bool}
    (hco : OutClosed n mIn used0) (hru : RootsUsed n mIn used0) :
    ∀ fuel (trail : List Nat) (v u0 : Nat) (used : Nat → Bool),
      (∀ x, used x = true ↔ (used0 x = true ∨ x ∈ trail)) →
      (∀ x ∈ trail, x < n ∧ used0 x = false) →
      trail.Nodup →
      linkedTo mIn trail v →
      (trail = [] → v = u0) →
      (trail ≠ [] → trail.headD 0 = u0) →
      v < n → used0 v = false →
      unusedCount n used < fuel →
      ∃ rest,
        (budChain mIn fuel v used).1 = some rest ∧
        (∀ x, (budChain mIn fuel v used).2 x = true ↔
          (used0 x = true ∨ x ∈ trail ++ rest)) ∧
        trail ++ rest ≠ [] ∧
        (trail ++ rest).headD 0 = u0 ∧
        (trail ++ rest).Nodup ∧
        (∀ x ∈ trail ++ rest, x < n ∧ used0 x = false) ∧
        linkedTo mIn (trail ++ rest) u0 := by
  intro fuel
  induction fuel with
  | zero =>
    intro trail v u0 used _ _ _ _ _ _ _ _ hfu
    omega
  | succ fuel ih =>
    intro trail v u0 used husd htr hnd hlink hemp hhead hvlt hv0 hfu
    rw [budChain_succ]
    cases hu : used v with
    | true =>
      -- the chain closed: `v` must be the start `u0`
      have hvtr : v ∈ trail := by
        rcases (husd v).1 hu with h1 | h2
        · rw [hv0] at h1
          exact absurd h1 (by simp)
        · exact h2
      have htrne : trail ≠ [] := by
        intro hc
        rw [hc] at hvtr
        exact (List.not_mem_nil v) hvtr
      have hheadv : trail.headD 0 = v :=
        linkedTo_head_of_mem hinj hnd (fun x hx => (htr x hx).1) hvlt hlink hvtr
      have hvu0 : v = u0 := by
        rw [← hheadv]
        exact hhead htrne
      refine ⟨[], rfl, ?_, ?_, ?_, ?_, ?_, ?_⟩
      · intro x
        simpa using husd x
      · simpa using htrne
      · rw [List.append_nil]
        exact hhead htrne
      · simpa using hnd
      · intro x hx
        rw [List.append_nil] at hx
        exact htr x hx
      · rw [List.append_nil, ← hvu0]
        exact hlink
    | false =>
      rw [if_neg Bool.false_ne_true]
      have hvtr : v ∉ trail := by
        intro hc
        have : used v = true := (husd v).2 (Or.inr hc)
        rw [hu] at this
        exact Bool.false_ne_true this
      have hvm : mIn v ≠ -1 := by
        intro hc
        have := hru v hvlt hc
        rw [hv0] at this
        exact Bool.false_ne_true this
      rw [if_neg hvm]
      obtain ⟨hge, hlt⟩ : 0 ≤ mIn v ∧ mIn v < (n : Int) := by
        rcases hrange v hvlt with h | h
        · exact absurd h hvm
        · exact h
      set w := (mIn v).toNat with hw
      have hwcast : ((w : Nat) : Int) = mIn v := Int.toNat_of_nonneg hge
      have hwlt : w < n := by
        have : ((w : Nat) : Int) < (n : Int) := hwcast ▸ hlt
        exact_mod_cast this
      have hw0 : used0 w = false := by
        cases hc : used0 w
        · rfl
        · exfalso
          have := hco w v hc hvlt hwcast.symm
          rw [hv0] at this
          exact Bool.false_ne_true this
      have husd' : ∀ x, markUsed used v x = true ↔
          (used0 x = true ∨ x ∈ trail ++ [v]) := by
        intro x
        by_cases hxv : x = v
        · subst hxv
          simp [markUsed]
        · rw [show markUsed used v x = used x by simp [markUsed, hxv]]
          rw [husd x]
          simp [hxv]
      have htr' : ∀ x ∈ trail ++ [v], x < n ∧ used0 x = false := by
        intro x hx
        rcases List.mem_append.1 hx with h1 | h2
        · exact htr x h1
        · rw [List.mem_singleton.1 h2]
          exact ⟨hvlt, hv0⟩
      have hnd' : (trail ++ [v]).Nodup := by
        have : (trail ++ [v]).Perm (v :: trail) := List.perm_append_singleton v _
        rw [this.nodup_iff]
        exact List.nodup_cons.2 ⟨hvtr, hnd⟩
      have hlink' : linkedTo mIn (trail ++ [v]) w :=
        linkedTo_append hlink hwcast.symm
      have hhead' : trail ++ [v] ≠ [] → (trail ++ [v]).headD 0 = u0 := by
        intro _
        cases trail with
        | nil =>
          simp only [List.nil_append, List.headD_cons]
          exact hemp rfl
        | cons a t =>
          have h2 := hhead (by simp)
          simpa using h2
      have hfu' : unusedCount n (markUsed used v) < fuel := by
        have hmark : unusedCount n (markUsed used v) + 1 = unusedCount n used :=
          unusedCount_markUsed hvlt hu
        omega
      obtain ⟨rest, hr1, hr2, hr3, hr4, hr5, hr6, hr7⟩ :=
        ih (trail ++ [v]) w u0 (markUsed used v) husd' htr' hnd' hlink'
          (by intro hc; exact absurd hc (by simp)) hhead' hwlt hw0 hfu'
      refine ⟨v :: rest, ?_, ?_, ?_, ?_, ?_, ?_, ?_⟩
      · simp only [hr1]
        rfl
      · intro x
        show (budChain mIn fuel w (markUsed used v)).2 x = true ↔
          (used0 x = true ∨ x ∈ trail ++ (v :: rest))
        rw [hr2 x]
        constructor
        · rintro (h | h)
          · exact Or.inl h
          · right
            rw [List.append_assoc, List.singleton_append] at h
            exact h
        · rintro (h | h)
          · exact Or.inl h
          · right
            rw [List.append_assoc, List.singleton_append]
            exact h
      · simp
      · have := hr4
        rw [List.append_assoc, List.singleton_append] at this
        exact this
      · have := hr5
        rw [List.append_assoc, List.singleton_append] at this
        exact this
      · intro x hx
        apply hr6
        rw [List.append_assoc, List.singleton_append]
        exact hx
      · have := hr7
        rw [List.append_assoc, List.singleton_append] at this
        exact this

theorem headD_mem {l : List Nat} (h : l ≠ []) : l.headD 0 ∈ l := by
  cases l with
  | nil => exact absurd rfl h
  | cons a t => exact List.mem_cons_self a t

theorem budsFold_spec {g : Graph} {mIn : Nat → Int} {vts : Nat → Option Nat}
    {base : List Nat}
    (hrange : ∀ v, v < g.n → mIn v = -1 ∨ (0 ≤ mIn v ∧ mIn v < (g.n : Int)))
    (hinj : ∀ v w, v < g.n → w < g.n → mIn v = mIn w → mIn v ≠ -1 → v = w) :
    ∀ (l : List Nat), (∀ x ∈ l, x < g.n) →
      ∀ (acc : (Nat → Bool) × List BudRec),
      BudInv g.n mIn base acc.1 acc.2 →
      (BudInv g.n mIn base
        (l.foldl
          (fun acc u =>
            if acc.1 u then acc
            else if mIn u = -1 then acc
            else
              match budChain mIn (g.n + 1) u acc.1 with
              | (none, used') => (used', acc.2)
              | (some nodes, used') =>
                let nodes' := popBackIfClosed nodes
                (used', acc.2 ++ [BudRec.mk nodes' (firstStemRef g vts nodes')])) acc).1
        (l.foldl
          (fun acc u =>
            if acc.1 u then acc
            else if mIn u = -1 then acc
            else
              match budChain mIn (g.n + 1) u acc.1 with
              | (none, used') => (used', acc.2)
              | (some nodes, used') =>
                let nodes' := popBackIfClosed nodes
                (used', acc.2 ++ [BudRec.mk nodes' (firstStemRef g vts nodes')])) acc).2) ∧
      (∀ x, acc.1 x = true →
        (l.foldl
          (fun acc u =>
            if acc.1 u then acc
            else if mIn u = -1 then acc
            else
              match budChain mIn (g.n + 1) u acc.1 with
              | (none, used') => (used', acc.2)
              | (some nodes, used') =>
                let nodes' := popBackIfClosed nodes
                (used', acc.2 ++ [BudRec.mk nodes' (firstStemRef g vts nodes')])) acc).1 x = true) ∧
      (∀ x ∈ l,
        (l.foldl
          (fun acc u =>
            if acc.1 u then acc
            else if mIn u = -1 then acc
            else
              match budChain mIn (g.n + 1) u acc.1 with
              | (none, used') => (used', acc.2)
              | (some nodes, used') =>
                let nodes' := popBackIfClosed nodes
                (used', acc.2 ++ [BudRec.mk nodes' (firstStemRef g vts nodes')])) acc).1 x = true) := by
  intro l
  induction l with
  | nil =>
    intro _ acc hInv
    exact ⟨hInv, fun x h => h, by intro x hx; exact absurd hx (by simp)⟩
  | cons u l' ih =>
    intro hl acc hInv
    have hu_lt : u < g.n := hl u (by simp)
    have hl' : ∀ x ∈ l', x < g.n := fun x hx => hl x (by simp [hx])
    simp only [List.foldl_cons]
    by_cases hu : acc.1 u = true
    · rw [show (if acc.1 u = true then acc
          else if mIn u = -1 then acc
          else
            match budChain mIn (g.n + 1) u acc.1 with
            | (none, used') => (used', acc.2)
            | (some nodes, used') =>
              let nodes' := popBackIfClosed nodes
              (used', acc.2 ++ [BudRec.mk nodes' (firstStemRef g vts nodes')])) = acc
          from if_pos hu]
      obtain ⟨hI, hM, hA⟩ := ih hl' acc hInv
      refine ⟨hI, hM, ?_⟩
      intro x hx
      rcases List.mem_cons.1 hx with rfl | hx'
      · exact hM x hu
      · exact hA x hx'
    · have hu' : acc.1 u = false := by
        cases h : acc.1 u
        · rfl
        · exact absurd h hu
      have hm : mIn u ≠ -1 := by
        intro hc
        have := hInv.ru u hu_lt hc
        rw [hu'] at this
        exact Bool.false_ne_true this
      obtain ⟨rest, hr1, hr2, hr3, hr4, hr5, hr6, hr7⟩ :=
        budChain_spec hrange hinj hInv.oc hInv.ru (g.n + 1) [] u u acc.1
          (by intro x; simp) (by intro x hx; exact absurd hx (by simp))
          List.nodup_nil trivial (fun _ => rfl) (fun hc => absurd rfl hc)
          hu_lt hu' (by have := unusedCount_le (n := g.n) acc.1; omega)
      simp only [List.nil_append] at hr2 hr3 hr4 hr5 hr6 hr7
      have hrest_nodup : rest.Nodup := hr5
      have hbc : budChain mIn (g.n + 1) u acc.1 =
          (some rest, (budChain mIn (g.n + 1) u acc.1).2) := by
        rw [← hr1]
      have hstep : (if acc.1 u = true then acc
          else if mIn u = -1 then acc
          else
            match budChain mIn (g.n + 1) u acc.1 with
            | (none, used') => (used', acc.2)
            | (some nodes, used') =>
              let nodes' := popBackIfClosed nodes
              (used', acc.2 ++ [BudRec.mk nodes' (firstStemRef g vts nodes')])) =
          ((budChain mIn (g.n + 1) u acc.1).2,
            acc.2 ++ [BudRec.mk rest (firstStemRef g vts rest)]) := by
        rw [if_neg hu, if_neg hm, hbc]
        simp only [popBackIfClosed_of_nodup hrest_nodup]
      rw [hstep]
      have hInv2 : BudInv g.n mIn base ((budChain mIn (g.n + 1) u acc.1).2)
          (acc.2 ++ [BudRec.mk rest (firstStemRef g vts rest)]) := by
        refine ⟨?_, ?_, ?_, ?_⟩
        · intro v
          have hold := hInv.counts v
          have hsplit : (base ++ (((acc.2 ++ [BudRec.mk rest (firstStemRef g vts rest)]).map
              BudRec.nodes).flatten)).count v =
              (base ++ ((acc.2.map BudRec.nodes).flatten)).count v +
                rest.count v := by
            simp only [List.map_append, List.flatten_append, List.count_append,
              List.map_cons, List.map_nil, List.flatten_cons, List.flatten_nil,
              List.count_nil]
            omega
          rw [hsplit, hold]
          by_cases hvr : v ∈ rest
          · have hv0 : acc.1 v = false := (hr6 v hvr).2
            have hrc : rest.count v = 1 :=
              List.count_eq_one_of_mem hrest_nodup hvr
            rw [hrc, if_neg (by rw [hv0]; exact Bool.false_ne_true),
              if_pos ((hr2 v).2 (Or.inr hvr))]
          · have hrc : rest.count v = 0 := List.count_eq_zero_of_not_mem hvr
            rw [hrc, Nat.add_zero]
            have hcond : (acc.1 v = true) ↔
                ((budChain mIn (g.n + 1) u acc.1).2 v = true) := by
              rw [hr2 v]
              constructor
              · exact Or.inl
              · rintro (h | h)
                · exact h
                · exact absurd h hvr
            rw [if_congr hcond rfl rfl]
        · intro v hv
          rcases (hr2 v).1 hv with h | h
          · exact hInv.usedLt v h
          · exact (hr6 v h).1
        · intro a w ha hwlt hwm
          rcases (hr2 a).1 ha with h | h
          · exact (hr2 w).2 (Or.inl (hInv.oc a w h hwlt hwm))
          · have hclosing : linkedTo mIn rest (rest.headD 0) := hr4 ▸ hr7
            have hwmem : w ∈ rest :=
              linkedTo_closed_pred hinj hclosing hr3
                (fun x hx => (hr6 x hx).1) hwlt hwm h
            exact (hr2 w).2 (Or.inr hwmem)
        · intro v hvlt hvm
          exact (hr2 v).2 (Or.inl (hInv.ru v hvlt hvm))
      obtain ⟨hI, hM, hA⟩ := ih hl'
        ((budChain mIn (g.n + 1) u acc.1).2,
          acc.2 ++ [BudRec.mk rest (firstStemRef g vts rest)]) hInv2
      refine ⟨hI, ?_, ?_⟩
      · intro x hx
        exact hM x ((hr2 x).2 (Or.inl hx))
      · intro x hx
        rcases List.mem_cons.1 hx with rfl | hx'
        · apply hM
          apply (hr2 x).2
          right
          rw [← hr4]
          exact headD_mem hr3
        · exact hA x hx'

/-- C3.  After the untargeted Liu `calculate()`, the vertex sets of the
stems and the buds form a partition of `V`: every vertex appears exactly
once across all stem and bud node lists, and every listed vertex is a
vertex of the graph.  The bud-to-stem attachment is a reference only
(the `stemRef` field) and contributes no vertex.  The hypotheses state
that `mIn` is the matching vector produced by the external maximum
bipartite matching: entries are `-1` or a vertex, and no two vertices
are matched by the same vertex. -/
theorem liu_paths_partition (g : Graph) (mIn : Nat → Int)
    (hrange : ∀ v, v < g.n → mIn v = -1 ∨ (0 ≤ mIn v ∧ mIn v < (g.n : Int)))
    (hinj : ∀ v w, v < g.n → w < g.n → mIn v = mIn w → mIn v ≠ -1 → v = w) :
    (∀ v, v < g.n → (pathVertices (calculateControlPathsU g mIn)).count v = 1) ∧
    (∀ v ∈ pathVertices (calculateControlPathsU g mIn), v < g.n) := by
  obtain ⟨hcounts, hlt, hoc, hru⟩ := stemsPhase_spec hinj
  have hInv0 : BudInv g.n mIn
      (((stemsPhase g.n mIn (liuDrivers g.n mIn)).paths.map Prod.snd).flatten)
      (stemsPhase g.n mIn (liuDrivers g.n mIn)).used [] := by
    refine ⟨?_, hlt, hoc, hru⟩
    intro v
    simpa using hcounts v
  obtain ⟨hI, hM, hA⟩ := @budsFold_spec g mIn
    ((stemsPhase g.n mIn (liuDrivers g.n mIn)).vts)
    (((stemsPhase g.n mIn (liuDrivers g.n mIn)).paths.map Prod.snd).flatten)
    hrange hinj (List.range g.n) (by intro x hx; exact List.mem_range.1 hx)
    ((stemsPhase g.n mIn (liuDrivers g.n mIn)).used, []) hInv0
  have hpv : pathVertices (calculateControlPathsU g mIn) =
      (((stemsPhase g.n mIn (liuDrivers g.n mIn)).paths.map Prod.snd).flatten) ++
      ((((List.range g.n).foldl
        (fun acc u =>
          if acc.1 u then acc
          else if mIn u = -1 then acc
          else
            match budChain mIn (g.n + 1) u acc.1 with
            | (none, used') => (used', acc.2)
            | (some nodes, used') =>
              let nodes' := popBackIfClosed nodes
              (used', acc.2 ++
                [BudRec.mk nodes'
                  (firstStemRef g (stemsPhase g.n mIn (liuDrivers g.n mIn)).vts nodes')]))
        ((stemsPhase g.n mIn (liuDrivers g.n mIn)).used, [])).2).map
          BudRec.nodes).flatten := rfl
  constructor
  · intro v hv
    rw [hpv, hI.counts v, if_pos (hA v (List.mem_range.2 hv))]
  · intro v hv
    rw [hpv] at hv
    have hpos := List.count_pos_iff.2 hv
    rw [hI.counts v] at hpos
    cases hu : (((List.range g.n).foldl
        (fun acc u =>
          if acc.1 u then acc
          else if mIn u = -1 then acc
          else
            match budChain mIn (g.n + 1) u acc.1 with
            | (none, used') => (used', acc.2)
            | (some nodes, used') =>
              let nodes' := popBackIfClosed nodes
              (used', acc.2 ++
                [BudRec.mk nodes'
                  (firstStemRef g (stemsPhase g.n mIn (liuDrivers g.n mIn)).vts nodes')]))
        ((stemsPhase g.n mIn (liuDrivers g.n mIn)).used, [])).1 v) with
    | false =>
      rw [hu] at hpos
      simp at hpos
    | true =>
      exact hI.usedLt v hu

/-- Witness for C3 on the directed path `0 → 1 → 2 → 3` with its maximum
matching: every one of the four vertices is covered exactly once by the
control paths. -/
theorem liu_paths_partition_witness :
    (∀ v, v < exPath4.n →
      (pathVertices (calculateControlPathsU exPath4 exMatchPath4)).count v = 1) ∧
    (∀ v ∈ pathVertices (calculateControlPathsU exPath4 exMatchPath4),
      v < exPath4.n) :=
  liu_paths_partition exPath4 exMatchPath4
    (by decide)
    (fun v w hv hw =>
      (by decide : ∀ v, v < exPath4.n → ∀ w, w < exPath4.n →
        (exMatchPath4 v = exMatchPath4 w → exMatchPath4 v ≠ -1 → v = w))
        v hv w hw)

/-- C1.  After the untargeted `calculate()`, the driver list is exactly
the set of unmatched vertices of the computed maximum matching, and it
is forced to `[0]` when that set is empty.  The stem and bud phases that
run in between never touch `m_driverNodes`, and the untargeted branch
never mutates the matching. -/
theorem liu_driver_set (g : Graph) (mIn : Nat → Int) :
    (liuDrivers g.n mIn ≠ [] →
      ∀ v, v ∈ (calculateControlPathsU g mIn).drivers ↔ (v < g.n ∧ mIn v = -1)) ∧
    (liuDrivers g.n mIn = [] → (calculateControlPathsU g mIn).drivers = [0]) := by
  constructor
  · intro hne v
    show v ∈ (if liuDrivers g.n mIn = [] then [0] else liuDrivers g.n mIn) ↔ _
    rw [if_neg hne]
    simp [liuDrivers, List.mem_filter, List.mem_range, and_comm]
  · intro he
    show (if liuDrivers g.n mIn = [] then [0] else liuDrivers g.n mIn) = [0]
    rw [if_pos he]

/-- Witness for C1: the path graph has driver set `{0}` (vertex 0 is the
only unmatched vertex), and the fully matched 3-cycle is forced to
driver set `{0}`. -/
theorem liu_driver_set_witness :
    (∀ v, v ∈ (calculateControlPathsU exPath4 exMatchPath4).drivers ↔
      (v < 4 ∧ exMatchPath4 v = -1)) ∧
    (calculateControlPathsU exCycle3 exMatchCycle3).drivers = [0] :=
  ⟨(liu_driver_set exPath4 exMatchPath4).1 (by decide),
   (liu_driver_set exCycle3 exMatchCycle3).2 (by decide)⟩

theorem bfsFoldAux_step_fst (bip : Graph) (forward : Bool)
    (t : List EdgeClass × List Nat × (Nat → Bool)) (e : Nat) :
    ((fun (t : List EdgeClass × List Nat × (Nat → Bool)) eid =>
      let r' := t.1.set eid EdgeClass.ordinary
      let y := if forward then bip.tgt eid else bip.src eid
      if t.2.2 y then (r', t.2.1, t.2.2)
      else (r', t.2.1 ++ [y], markUsed t.2.2 y)) t e).1 =
    t.1.set e EdgeClass.ordinary := by
  dsimp only
  split <;> split <;> rfl

theorem bfsFoldAux_length (bip : Graph) (forward : Bool) (incs : List Nat) :
    ∀ t : List EdgeClass × List Nat × (Nat → Bool),
      ((incs.foldl
        (fun (t : List EdgeClass × List Nat × (Nat → Bool)) eid =>
          let r' := t.1.set eid EdgeClass.ordinary
          let y := if forward then bip.tgt eid else bip.src eid
          if t.2.2 y then (r', t.2.1, t.2.2)
          else (r', t.2.1 ++ [y], markUsed t.2.2 y)) t).1).length = t.1.length := by
  induction incs with
  | nil => intro t; rfl
  | cons e incs ih =>
    intro t
    rw [List.foldl_cons]
    calc _ = (((fun (t : List EdgeClass × List Nat × (Nat → Bool)) eid =>
          let r' := t.1.set eid EdgeClass.ordinary
          let y := if forward then bip.tgt eid else bip.src eid
          if t.2.2 y then (r', t.2.1, t.2.2)
          else (r', t.2.1 ++ [y], markUsed t.2.2 y)) t e).1).length := ih _
      _ = (t.1.set e EdgeClass.ordinary).length := by
          rw [bfsFoldAux_step_fst]
      _ = t.1.length := by simp

theorem bfsMark_length (bip : Graph) (forward : Bool) :
    ∀ fuel queue seen res,
      (bfsMark bip forward fuel queue seen res).length = res.length := by
  intro fuel
  induction fuel with
  | zero => intro queue seen res; rfl
  | succ fuel ih =>
    intro queue seen res
    cases queue with
    | nil => rfl
    | cons x rest =>
      show (bfsMark bip forward fuel _ _ _).length = res.length
      rw [ih]
      exact bfsFoldAux_length bip forward _ (res, rest, seen)

theorem sccPass_length (bip : Graph) (scc : Nat → Nat) (m : Nat) :
    ∀ res, (sccPass bip scc m res).length = res.length := by
  unfold sccPass
  generalize List.range m = l
  induction l with
  | nil => intro res; rfl
  | cons i l ih =>
    intro res
    rw [List.foldl_cons]
    by_cases h : scc (bip.src i) = scc (bip.tgt i)
    · rw [if_pos h, ih]
      simp
    · rw [if_neg h, ih]

theorem criticalPass_length (g : Graph) (mIn : Nat → Int) :
    ∀ res, (criticalPass g mIn res).length = res.length := by
  unfold criticalPass
  generalize List.range g.n = l
  induction l with
  | nil => intro res; rfl
  | cons v l ih =>
    intro res
    rw [List.foldl_cons]
    by_cases h1 : mIn v = -1
    · rw [if_pos h1, ih]
    · rw [if_neg h1, ih]
      cases he : g.getEid (mIn v).toNat v with
      | none => rfl
      | some i =>
        show ((if res.getD i EdgeClass.redundant = EdgeClass.redundant then
          res.set i EdgeClass.critical else res)).length = res.length
        by_cases h2 : res.getD i EdgeClass.redundant = EdgeClass.redundant
        · rw [if_pos h2]
          simp
        · rw [if_neg h2]

/-- C7.  Liu edge classification succeeds and assigns one class per edge
whenever the problem is untargeted, and fails with the
unsupported-operation error whenever a target-vertex set is present.
The support check is the first statement of the method, so the failure
happens before any classification work; the method is `const`, so the
solver state is unchanged in either case (the embedded operation is a
pure function of the solver state). -/
theorem liu_edge_classes_support (g : Graph) (targets : Option (List Nat))
    (mIn : Nat → Int) (scc : Nat → Nat) :
    (∀ ts, targets = some ts →
      liuEdgeClassesOp g targets mIn scc =
        Except.error SolverError.notSupported) ∧
    (targets = none →
      liuEdgeClassesOp g targets mIn scc =
        Except.ok (liuEdgeClassesCore g mIn scc) ∧
      (liuEdgeClassesCore g mIn scc).length = g.ecount) := by
  constructor
  · intro ts h
    rw [h]
    rfl
  · intro h
    rw [h]
    refine ⟨rfl, ?_⟩
    unfold liuEdgeClassesCore
    rw [criticalPass_length, sccPass_length, bfsMark_length, bfsMark_length]
    exact List.length_replicate _ _

/-- Witness for C7: a targeted solver on the path graph errors out, and
the untargeted solver returns one class for each of the three edges. -/
theorem liu_edge_classes_support_witness :
    liuEdgeClassesOp exPath4 (some [3]) exMatchPath4 (fun x => x) =
      Except.error SolverError.notSupported ∧
    (liuEdgeClassesCore exPath4 exMatchPath4 (fun x => x)).length =
      exPath4.ecount :=
  ⟨(liu_edge_classes_support exPath4 (some [3]) exMatchPath4 (fun x => x)).1
      [3] rfl,
   ((liu_edge_classes_support exPath4 none exMatchPath4 (fun x => x)).2
      rfl).2⟩

/-- C6: the SBD edge classifier emits one class per edge in edge-index
order, and the class is determined by the sign of that edge's score from
the degree-difference analysis: a negative score gives DISTINGUISHED, a
zero score gives REDUNDANT, and a positive score gives CRITICAL. -/
theorem sbd_edge_classifier_sign (g : Graph) :
    (sbdDriverChanges g).length = g.ecount ∧
    (sbdEdgeClasses g).length = g.ecount ∧
    ∀ i, i < g.ecount →
      ((sbdDriverChanges g).getD i 0 < 0 ∧
        (sbdEdgeClasses g).getD i EdgeClass.ordinary =
          EdgeClass.distinguished) ∨
      ((sbdDriverChanges g).getD i 0 = 0 ∧
        (sbdEdgeClasses g).getD i EdgeClass.ordinary = EdgeClass.redundant) ∨
      (0 < (sbdDriverChanges g).getD i 0 ∧
        (sbdEdgeClasses g).getD i EdgeClass.ordinary = EdgeClass.critical) := by
  refine ⟨by simp [sbdDriverChanges], by simp [sbdEdgeClasses, sbdDriverChanges],
    fun i hi => ?_⟩
  have hlen : i < (sbdDriverChanges g).length := by
    simpa [sbdDriverChanges] using hi
  have hm : sbdEdgeClasses g = (sbdDriverChanges g).map (fun d =>
      if d < 0 then EdgeClass.distinguished
      else if d = 0 then EdgeClass.redundant
      else EdgeClass.critical) := rfl
  have key : (sbdEdgeClasses g).getD i EdgeClass.ordinary =
      (if (sbdDriverChanges g).getD i 0 < 0 then EdgeClass.distinguished
       else if (sbdDriverChanges g).getD i 0 = 0 then EdgeClass.redundant
       else EdgeClass.critical) := by
    rw [hm]
    simp only [List.getD_eq_getElem?_getD, List.getElem?_map,
      List.getElem?_eq_getElem hlen, Option.map_some', Option.getD_some]
  rcases lt_trichotomy ((sbdDriverChanges g).getD i 0) 0 with hlt | heq | hgt
  · exact Or.inl ⟨hlt, by rw [key, if_pos hlt]⟩
  · exact Or.inr (Or.inl ⟨heq, by rw [key, if_neg (by omega), if_pos heq]⟩)
  · exact Or.inr (Or.inr ⟨hgt, by
      rw [key, if_neg (by omega), if_neg (by omega)]⟩)

/-- Witness for C6 on the first edge of the path graph: the score is
placed in exactly one sign class and the classifier answers with the
corresponding label. -/
theorem sbd_edge_classifier_sign_witness :
    0 < exPath4.ecount ∧
    (((sbdDriverChanges exPath4).getD 0 0 < 0 ∧
      (sbdEdgeClasses exPath4).getD 0 EdgeClass.ordinary =
        EdgeClass.distinguished) ∨
     ((sbdDriverChanges exPath4).getD 0 0 = 0 ∧
      (sbdEdgeClasses exPath4).getD 0 EdgeClass.ordinary =
        EdgeClass.redundant) ∨
     (0 < (sbdDriverChanges exPath4).getD 0 0 ∧
      (sbdEdgeClasses exPath4).getD 0 EdgeClass.ordinary =
        EdgeClass.critical)) :=
  ⟨by decide, (sbd_edge_classifier_sign exPath4).2.2 0 (by decide)⟩

/-- The balanced-cluster flag fold of `calculate()`: a component label
stays `true` exactly when every vertex carrying it is balanced. -/
theorem bcFold_spec (g : Graph) (membership : Nat → Nat) :
    ∀ (l : List Nat) (bc0 : Nat → Bool) (j : Nat),
      ((l.foldl (fun bc i => if isBalancedV g i then bc
          else fun j' => if j' = membership i then false else bc j') bc0) j
          = true ↔
        (bc0 j = true ∧ ∀ i ∈ l, membership i = j → isBalancedV g i)) := by
  intro l
  induction l with
  | nil => intro bc0 j; simp
  | cons i l ih =>
    intro bc0 j
    simp only [List.foldl_cons]
    by_cases hb : isBalancedV g i
    · rw [if_pos hb, ih]
      constructor
      · rintro ⟨h0, hrest⟩
        refine ⟨h0, fun i' hi' hm => ?_⟩
        rcases List.mem_cons.mp hi' with rfl | hi'
        · exact hb
        · exact hrest i' hi' hm
      · rintro ⟨h0, hall⟩
        exact ⟨h0, fun i' hi' hm => hall i' (List.mem_cons_of_mem _ hi') hm⟩
    · rw [if_neg hb, ih]
      by_cases hj : j = membership i
      · constructor
        · rintro ⟨h0, -⟩
          rw [if_pos hj] at h0
          exact absurd h0 (by simp)
        · rintro ⟨-, hall⟩
          exact absurd (hall i (List.mem_cons_self i l) hj.symm) hb
      · constructor
        · rintro ⟨h0, hrest⟩
          rw [if_neg hj] at h0
          refine ⟨h0, fun i' hi' hm => ?_⟩
          rcases List.mem_cons.mp hi' with rfl | hi'
          · exact absurd hm.symm hj
          · exact hrest i' hi' hm
        · rintro ⟨h0, hall⟩
          exact ⟨by rw [if_neg hj]; exact h0,
            fun i' hi' hm => hall i' (List.mem_cons_of_mem _ hi') hm⟩

/-- The driver-collecting fold of `calculate()` over an ascending vertex
list: a vertex is appended exactly when its component flag is still set
and no earlier vertex shares its component label. -/
theorem pickFold_mem (membership : Nat → Nat) :
    ∀ (l : List Nat), l.Pairwise (· < ·) →
      ∀ (acc : List Nat) (bc : Nat → Bool) (v : Nat),
        (v ∈ (l.foldl (fun (p : List Nat × (Nat → Bool)) i =>
            if p.2 (membership i) then
              (p.1 ++ [i], fun j => if j = membership i then false else p.2 j)
            else p) (acc, bc)).1 ↔
          (v ∈ acc ∨ (v ∈ l ∧ bc (membership v) = true ∧
            ∀ w ∈ l, w < v → membership w ≠ membership v))) := by
  intro l
  induction l with
  | nil => intro _ acc bc v; simp
  | cons i l ih =>
    intro hpw acc bc v
    have hi := (List.pairwise_cons.mp hpw).1
    have hl := (List.pairwise_cons.mp hpw).2
    simp only [List.foldl_cons]
    by_cases hbc : bc (membership i) = true
    · rw [if_pos hbc,
        ih hl (acc ++ [i]) (fun j => if j = membership i then false else bc j) v]
      constructor
      · rintro (hacc | ⟨hvl, hbcv, hP⟩)
        · rcases List.mem_append.mp hacc with hacc | hsing
          · exact Or.inl hacc
          · have hv : v = i := by simpa using hsing
            subst hv
            refine Or.inr ⟨List.mem_cons_self _ _, hbc, fun w hw hlt => ?_⟩
            rcases List.mem_cons.mp hw with rfl | hw
            · exact absurd hlt (lt_irrefl _)
            · exact absurd hlt (by have := hi w hw; omega)
        · have hbcv' : (if membership v = membership i then false
              else bc (membership v)) = true := hbcv
          have hne : membership v ≠ membership i := by
            intro he
            rw [if_pos he] at hbcv'
            exact absurd hbcv' (by simp)
          rw [if_neg hne] at hbcv'
          refine Or.inr ⟨List.mem_cons_of_mem _ hvl, hbcv', fun w hw hlt => ?_⟩
          rcases List.mem_cons.mp hw with rfl | hw
          · exact fun he => hne he.symm
          · exact hP w hw hlt
      · rintro (hacc | ⟨hv_cons, hbcv, hP⟩)
        · exact Or.inl (List.mem_append.mpr (Or.inl hacc))
        · rcases List.mem_cons.mp hv_cons with rfl | hvl
          · exact Or.inl (List.mem_append.mpr (Or.inr (by simp)))
          · have hlt : i < v := hi v hvl
            have hne : membership v ≠ membership i := fun he =>
              absurd he.symm (hP i (List.mem_cons_self _ _) hlt)
            refine Or.inr ⟨hvl, ?_,
              fun w hw hlt' => hP w (List.mem_cons_of_mem _ hw) hlt'⟩
            show (if membership v = membership i then false
              else bc (membership v)) = true
            rw [if_neg hne]; exact hbcv
    · rw [if_neg hbc, ih hl acc bc v]
      constructor
      · rintro (hacc | ⟨hvl, hbcv, hP⟩)
        · exact Or.inl hacc
        · refine Or.inr ⟨List.mem_cons_of_mem _ hvl, hbcv, fun w hw hlt => ?_⟩
          rcases List.mem_cons.mp hw with rfl | hw
          · exact fun he => hbc (by rw [he]; exact hbcv)
          · exact hP w hw hlt
      · rintro (hacc | ⟨hv_cons, hbcv, hP⟩)
        · exact Or.inl hacc
        · rcases List.mem_cons.mp hv_cons with rfl | hvl
          · exact absurd hbcv hbc
          · exact Or.inr ⟨hvl, hbcv,
              fun w hw hlt => hP w (List.mem_cons_of_mem _ hw) hlt⟩

/-- Every pair of vertices of the 3-cycle is weakly connected. -/
theorem exCycle3_weakConn (i j : Nat) (hi : i < 3) (hj : j < 3) :
    exCycle3.weakConn i j := by
  have a01 : exCycle3.adj 0 1 := ⟨(0, 1), by simp [exCycle3], Or.inl ⟨rfl, rfl⟩⟩
  have a10 : exCycle3.adj 1 0 := ⟨(0, 1), by simp [exCycle3], Or.inr ⟨rfl, rfl⟩⟩
  have a12 : exCycle3.adj 1 2 := ⟨(1, 2), by simp [exCycle3], Or.inl ⟨rfl, rfl⟩⟩
  have a21 : exCycle3.adj 2 1 := ⟨(1, 2), by simp [exCycle3], Or.inr ⟨rfl, rfl⟩⟩
  have a20 : exCycle3.adj 2 0 := ⟨(2, 0), by simp [exCycle3], Or.inl ⟨rfl, rfl⟩⟩
  have a02 : exCycle3.adj 0 2 := ⟨(2, 0), by simp [exCycle3], Or.inr ⟨rfl, rfl⟩⟩
  interval_cases i <;> interval_cases j
  · exact Relation.ReflTransGen.refl
  · exact Relation.ReflTransGen.single a01
  · exact Relation.ReflTransGen.single a02
  · exact Relation.ReflTransGen.single a10
  · exact Relation.ReflTransGen.refl
  · exact Relation.ReflTransGen.single a12
  · exact Relation.ReflTransGen.single a20
  · exact Relation.ReflTransGen.single a21
  · exact Relation.ReflTransGen.refl

/-- C5: under the weak-component contract for the igraph labelling, the
SBD driver set is exactly: every divergent vertex, plus the
lowest-indexed vertex of every weakly-connected component whose vertices
are all balanced. -/
theorem sbd_driver_set (g : Graph) (membership : Nat → Nat)
    (clusterCount : Nat)
    (hmem : ∀ i j, i < g.n → j < g.n →
      (membership i = membership j ↔ g.weakConn i j)) (v : Nat) :
    v ∈ (sbdCalculate g membership clusterCount).driverNodes ↔
      (v < g.n ∧
        (g.inDeg v < g.outDeg v ∨
          ((∀ w, w < g.n → g.weakConn v w → isBalancedV g w) ∧
           ∀ w, w < v → ¬ g.weakConn v w))) := by
  have hdn : (sbdCalculate g membership clusterCount).driverNodes =
      sbdDrivers g membership clusterCount := rfl
  rw [hdn]
  simp only [sbdDrivers]
  have hdiv : ∀ x : Nat,
      (x ∈ (List.range g.n).filter (fun i => g.inDeg i < g.outDeg i) ↔
        (x < g.n ∧ g.inDeg x < g.outDeg x)) := by
    intro x; simp [List.mem_filter, List.mem_range]
  by_cases h0 : 0 < ((List.range g.n).filter
      (fun i => decide (¬ g.inDeg i < g.outDeg i ∧ isBalancedV g i))).length
  · rw [if_pos h0,
      pickFold_mem membership (List.range g.n) (List.pairwise_lt_range g.n) _ _ v,
      bcFold_spec g membership (List.range g.n) (fun _ => true) (membership v),
      hdiv v]
    constructor
    · rintro (⟨hvn, hd⟩ | ⟨hvr, ⟨-, hall⟩, hmin⟩)
      · exact ⟨hvn, Or.inl hd⟩
      · have hvn : v < g.n := List.mem_range.mp hvr
        refine ⟨hvn, Or.inr ⟨fun w hwn hconn => ?_, fun w hwv hconn => ?_⟩⟩
        · exact hall w (List.mem_range.mpr hwn)
            ((hmem v w hvn hwn).mpr hconn).symm
        · have hwn : w < g.n := lt_trans hwv hvn
          exact hmin w (List.mem_range.mpr hwn) hwv
            ((hmem v w hvn hwn).mpr hconn).symm
    · rintro ⟨hvn, hd | ⟨hcomp, hmin⟩⟩
      · exact Or.inl ⟨hvn, hd⟩
      · refine Or.inr ⟨List.mem_range.mpr hvn, ⟨rfl, fun i hir hmi => ?_⟩,
          fun w hwr hwv hmw => ?_⟩
        · have hin : i < g.n := List.mem_range.mp hir
          exact hcomp i hin ((hmem v i hvn hin).mp hmi.symm)
        · have hwn : w < g.n := List.mem_range.mp hwr
          exact hmin w hwv ((hmem v w hvn hwn).mp hmw.symm)
  · rw [if_neg h0, hdiv v]
    constructor
    · rintro ⟨hvn, hd⟩
      exact ⟨hvn, Or.inl hd⟩
    · rintro ⟨hvn, hd | ⟨hcomp, -⟩⟩
      · exact ⟨hvn, hd⟩
      · exfalso
        apply h0
        have hbv : isBalancedV g v := hcomp v hvn Relation.ReflTransGen.refl
        have hvmem : v ∈ (List.range g.n).filter
            (fun i => decide (¬ g.inDeg i < g.outDeg i ∧ isBalancedV g i)) := by
          refine List.mem_filter.mpr ⟨List.mem_range.mpr hvn, ?_⟩
          simp only [decide_eq_true_eq]
          refine ⟨?_, hbv⟩
          have := hbv.1
          omega
        exact List.length_pos_of_mem hvmem

/-- Witness for C5 on the 3-cycle with its true weak-component
labelling: the contract hypothesis holds and the characterization
applies at vertex `0`. -/
theorem sbd_driver_set_witness :
    (∀ i j, i < exCycle3.n → j < exCycle3.n →
      ((fun _ : Nat => (0 : Nat)) i = (fun _ : Nat => (0 : Nat)) j ↔
        exCycle3.weakConn i j)) ∧
    (0 ∈ (sbdCalculate exCycle3 (fun _ => 0) 1).driverNodes ↔
      (0 < exCycle3.n ∧
        (exCycle3.inDeg 0 < exCycle3.outDeg 0 ∨
          ((∀ w, w < exCycle3.n → exCycle3.weakConn 0 w →
              isBalancedV exCycle3 w) ∧
           ∀ w, w < 0 → ¬ exCycle3.weakConn 0 w)))) := by
  have hmem : ∀ i j, i < exCycle3.n → j < exCycle3.n →
      ((fun _ : Nat => (0 : Nat)) i = (fun _ : Nat => (0 : Nat)) j ↔
        exCycle3.weakConn i j) :=
    fun i j hi hj => ⟨fun _ => exCycle3_weakConn i j hi hj, fun _ => rfl⟩
  exact ⟨hmem, sbd_driver_set exCycle3 (fun _ => 0) 1 hmem 0⟩

/-- Counting a list's positions through `getD` agrees with filtering the
list itself (bridges `incident(v, ...)` and `degree(v, ...)`). -/
theorem length_filter_range_getD (p : Nat × Nat → Bool) :
    ∀ l : List (Nat × Nat),
      ((List.range l.length).filter (fun i => p (l.getD i (0, 0)))).length =
        (l.filter p).length := by
  intro l
  induction l using List.reverseRecOn with
  | nil => simp
  | append_singleton l a ih =>
    have hL : (l ++ [a]).length = l.length + 1 := by simp
    rw [hL, List.range_succ, List.filter_append, List.length_append,
      List.filter_append, List.length_append]
    have h1 : (List.range l.length).filter
        (fun i => p ((l ++ [a]).getD i (0, 0))) =
        (List.range l.length).filter (fun i => p (l.getD i (0, 0))) := by
      apply List.filter_congr
      intro i hi
      rw [List.getD_append _ _ _ _ (List.mem_range.mp hi)]
    have h2 : (l ++ [a]).getD l.length (0, 0) = a := by
      rw [List.getD_append_right _ _ _ _ (le_refl _)]
      simp
    rw [h1, ih]
    congr 1
    by_cases hp : p a = true
    · simp [List.filter_singleton, h2, hp]
    · simp [List.filter_singleton, h2, hp]

/-- `incident(v, OUT)` lists one edge per unit of out-degree. -/
theorem incidentOut_length (g : Graph) (v : Nat) :
    (g.incidentOut v).length = g.outDeg v := by
  have := length_filter_range_getD (fun e => decide (e.1 = v)) g.edges
  simpa [Graph.incidentOut, Graph.ecount, Graph.src, Graph.outDeg] using this

/-- `incident(v, IN)` lists one edge per unit of in-degree. -/
theorem incidentIn_length (g : Graph) (v : Nat) :
    (g.incidentIn v).length = g.inDeg v := by
  have := length_filter_range_getD (fun e => decide (e.2 = v)) g.edges
  simpa [Graph.incidentIn, Graph.ecount, Graph.tgt, Graph.inDeg] using this

/-- Marking edges used only shrinks the unused sublist. -/
theorem filter_unused_sublist {used used' : Nat → Bool}
    (hmono : ∀ e, used e = true → used' e = true) (l : List Nat) :
    List.Sublist (l.filter (fun e => used' e = false))
      (l.filter (fun e => used e = false)) := by
  apply List.monotone_filter_right
  intro a ha
  simp only [decide_eq_true_eq] at ha ⊢
  cases hc : used a
  · rfl
  · exact absurd (hmono a hc) (by simp [ha])

/-- Strict decrease of the unused-edge count when an unused edge gets
marked used. -/
theorem unusedCount_lt_of_new {m : Nat} {used used' : Nat → Bool}
    (hmono : ∀ e, used e = true → used' e = true) {w : Nat} (hw : w < m)
    (h1 : used w = false) (h2 : used' w = true) :
    unusedCount m used' < unusedCount m used := by
  have hsub := filter_unused_sublist hmono (List.range m)
  refine lt_of_le_of_ne hsub.length_le (fun hlen => ?_)
  have heq := hsub.eq_of_length hlen
  have hmem : w ∈ (List.range m).filter (fun e => used e = false) :=
    List.mem_filter.mpr ⟨List.mem_range.mpr hw, by simp [h1]⟩
  rw [← heq] at hmem
  have := (List.mem_filter.mp hmem).2
  simp [h2] at this

/-- Residual out-degrees never grow as edges get used. -/
theorem outD_mono (g : Graph) {used used' : Nat → Bool}
    {outD inD outD' inD' : Nat → Int}
    (h1 : DegOk g used outD inD) (h2 : DegOk g used' outD' inD')
    (hmono : ∀ e, used e = true → used' e = true) (v : Nat) :
    outD' v ≤ outD v := by
  rw [h1.out v, h2.out v]
  exact_mod_cast (filter_unused_sublist hmono (g.incidentOut v)).length_le

/-- One-step unfolding of the walk loop when no unused outbound edge
exists. -/
theorem walkStep_succ_none (g : Graph) (fuel v : Nat) (used : Nat → Bool)
    (outD inD : Nat → Int)
    (hf : (g.incidentOut v).find? (fun e => used e = false) = none) :
    walkStep g (fuel + 1) v used outD inD = ⟨[], [], v, used, outD, inD⟩ := by
  show (match (g.incidentOut v).find? (fun e => used e = false) with
    | none => (⟨[], [], v, used, outD, inD⟩ : WalkOut)
    | some w =>
      let r := walkStep g fuel (g.tgt w) (markUsed used w)
        (fun x => if x = v then outD x - 1 else outD x)
        (fun x => if x = g.tgt w then inD x - 1 else inD x)
      ⟨v :: r.nodes, w :: r.edges, r.vfin, r.edgeUsed, r.outD, r.inD⟩) =
    ⟨[], [], v, used, outD, inD⟩
  rw [hf]

/-- One-step unfolding of the walk loop when the first unused outbound
edge is `w`. -/
theorem walkStep_succ_some (g : Graph) (fuel v : Nat) (used : Nat → Bool)
    (outD inD : Nat → Int) (w : Nat)
    (hf : (g.incidentOut v).find? (fun e => used e = false) = some w) :
    walkStep g (fuel + 1) v used outD inD =
      (let r := walkStep g fuel (g.tgt w) (markUsed used w)
        (fun x => if x = v then outD x - 1 else outD x)
        (fun x => if x = g.tgt w then inD x - 1 else inD x)
       ⟨v :: r.nodes, w :: r.edges, r.vfin, r.edgeUsed, r.outD, r.inD⟩) := by
  show (match (g.incidentOut v).find? (fun e => used e = false) with
    | none => (⟨[], [], v, used, outD, inD⟩ : WalkOut)
    | some w =>
      let r := walkStep g fuel (g.tgt w) (markUsed used w)
        (fun x => if x = v then outD x - 1 else outD x)
        (fun x => if x = g.tgt w then inD x - 1 else inD x)
      ⟨v :: r.nodes, w :: r.edges, r.vfin, r.edgeUsed, r.outD, r.inD⟩) = _
  rw [hf]

/-- Specification of the walk loop: degrees stay consistent, the walk
consumes a duplicate-free list of previously unused real edges (one per
node recorded), ends in a vertex with no unused outbound edge, and takes
no step exactly when the start has no unused outbound edge. -/
theorem walkStep_spec (g : Graph) :
    ∀ (fuel v : Nat) (used : Nat → Bool) (outD inD : Nat → Int),
      DegOk g used outD inD →
      unusedCount g.ecount used < fuel →
      (DegOk g (walkStep g fuel v used outD inD).edgeUsed
        (walkStep g fuel v used outD inD).outD
        (walkStep g fuel v used outD inD).inD ∧
       (∀ e, (walkStep g fuel v used outD inD).edgeUsed e = true ↔
         (used e = true ∨ e ∈ (walkStep g fuel v used outD inD).edges)) ∧
       (walkStep g fuel v used outD inD).edges.Nodup ∧
       (∀ e ∈ (walkStep g fuel v used outD inD).edges,
         used e = false ∧ e < g.ecount) ∧
       (walkStep g fuel v used outD inD).nodes.length =
         (walkStep g fuel v used outD inD).edges.length ∧
       (walkStep g fuel v used outD inD).outD
         (walkStep g fuel v used outD inD).vfin = 0 ∧
       ((walkStep g fuel v used outD inD).edges = [] ↔ outD v = 0)) := by
  intro fuel
  induction fuel with
  | zero => intro v used outD inD _ hfu; exact absurd hfu (Nat.not_lt_zero _)
  | succ fuel ih =>
    intro v used outD inD hdeg hfu
    cases hf : (g.incidentOut v).find? (fun e => used e = false) with
    | none =>
      rw [walkStep_succ_none g fuel v used outD inD hf]
      have hnil : (g.incidentOut v).filter (fun e => used e = false) = [] := by
        rw [List.filter_eq_nil_iff]
        intro a ha
        exact List.find?_eq_none.mp hf a ha
      have hout0 : outD v = 0 := by
        rw [hdeg.out v, hnil]
        rfl
      exact ⟨hdeg, by simp, by simp, by simp, rfl, hout0, by simp [hout0]⟩
    | some w =>
      have hwp : used w = false := by
        have := List.find?_some hf
        simpa using this
      have hwmem : w ∈ g.incidentOut v := List.mem_of_find?_eq_some hf
      have hwlt : w < g.ecount := by
        have := (List.mem_filter.mp hwmem).1
        simpa [List.mem_range] using this
      have hwsrc : g.src w = v := by
        have := (List.mem_filter.mp hwmem).2
        simpa using this
      have hdeg' : DegOk g (markUsed used w)
          (fun x => if x = v then outD x - 1 else outD x)
          (fun x => if x = g.tgt w then inD x - 1 else inD x) := by
        constructor
        · intro x
          show (if x = v then outD x - 1 else outD x) = _
          by_cases hx : x = v
          · subst hx
            have hnd : (g.incidentOut x).Nodup :=
              (List.nodup_range _).filter _
            have hcount := filter_markUsed_length hwp (g.incidentOut x)
              hwmem hnd
            rw [if_pos rfl, hdeg.out x]
            omega
          · rw [if_neg hx, hdeg.out x]
            congr 2
            apply List.filter_congr
            intro e he
            have hex : g.src e = x := by
              have := (List.mem_filter.mp he).2
              simpa using this
            have hew : e ≠ w := fun hc => hx ((hc ▸ hex).symm ▸ hwsrc)
            simp [markUsed, hew]
        · intro x
          show (if x = g.tgt w then inD x - 1 else inD x) = _
          by_cases hx : x = g.tgt w
          · subst hx
            have hwin : w ∈ g.incidentIn (g.tgt w) :=
              List.mem_filter.mpr ⟨List.mem_range.mpr hwlt, by simp⟩
            have hnd : (g.incidentIn (g.tgt w)).Nodup :=
              (List.nodup_range _).filter _
            have hcount := filter_markUsed_length hwp (g.incidentIn (g.tgt w))
              hwin hnd
            rw [if_pos rfl, hdeg.inn (g.tgt w)]
            omega
          · rw [if_neg hx, hdeg.inn x]
            congr 2
            apply List.filter_congr
            intro e he
            have hex : g.tgt e = x := by
              have := (List.mem_filter.mp he).2
              simpa using this
            have hew : e ≠ w := fun hc => hx (by rw [← hex, hc])
            simp [markUsed, hew]
      have hcnt' : unusedCount g.ecount (markUsed used w) < fuel := by
        have := unusedCount_markUsed hwlt hwp
        omega
      obtain ⟨ideg, iused, indup, ibound, ilen, ivfin, -⟩ :=
        ih (g.tgt w) (markUsed used w)
          (fun x => if x = v then outD x - 1 else outD x)
          (fun x => if x = g.tgt w then inD x - 1 else inD x) hdeg' hcnt'
      rw [walkStep_succ_some g fuel v used outD inD w hf]
      dsimp only
      refine ⟨ideg, ?_, ?_, ?_, by simpa using ilen, ivfin, ?_⟩
      · intro e
        rw [iused e]
        constructor
        · rintro (hm | hm)
          · by_cases hew : e = w
            · exact Or.inr (by simp [hew])
            · left
              simpa [markUsed, hew] using hm
          · exact Or.inr (List.mem_cons_of_mem _ hm)
        · rintro (hm | hm)
          · left
            by_cases hew : e = w <;> simp [markUsed, hew, hm]
          · rcases List.mem_cons.mp hm with rfl | hm
            · left; simp [markUsed]
            · right; exact hm
      · refine List.nodup_cons.mpr ⟨?_, indup⟩
        intro hmem
        have := (ibound w hmem).1
        simp [markUsed] at this
      · intro e he
        rcases List.mem_cons.mp he with rfl | he
        · exact ⟨hwp, hwlt⟩
        · refine ⟨?_, (ibound e he).2⟩
          have h1 := (ibound e he).1
          by_cases hew : e = w
          · subst hew; simp [markUsed] at h1
          · simpa [markUsed, hew] using h1
      · constructor
        · intro h
          exact absurd h (by simp)
        · intro h0
          exfalso
          have hpos : 0 < ((g.incidentOut v).filter
              (fun e => used e = false)).length :=
            List.length_pos_of_mem (List.mem_filter.mpr ⟨hwmem, by simp [hwp]⟩)
          rw [hdeg.out v] at h0
          omega

/-- Effect of one `createControlPathFromNode` call on the phase state:
the invariant survives, used edges stay used, and when the start vertex
still had an unused outbound edge the unused count strictly drops. -/
theorem doWalk_spec (g : Graph) (v : Nat) (st : SBDState)
    (hinv : SBDInv g st) :
    SBDInv g (doWalk g v st) ∧
    (∀ e, st.edgeUsed e = true → (doWalk g v st).edgeUsed e = true) ∧
    (0 < st.outD v →
      unusedCount g.ecount (doWalk g v st).edgeUsed <
        unusedCount g.ecount st.edgeUsed) := by
  have hfu : unusedCount g.ecount st.edgeUsed < g.ecount + 1 :=
    Nat.lt_succ_of_le (unusedCount_le _)
  obtain ⟨ideg, iused, indup, ibound, ilen, ivfin, inil⟩ :=
    walkStep_spec g (g.ecount + 1) v st.edgeUsed st.outD st.inD hinv.deg hfu
  set r := walkStep g (g.ecount + 1) v st.edgeUsed st.outD st.inD with hr
  have hmono : ∀ e, st.edgeUsed e = true → r.edgeUsed e = true :=
    fun e he => (iused e).mpr (Or.inl he)
  have hprog : 0 < st.outD v →
      unusedCount g.ecount r.edgeUsed < unusedCount g.ecount st.edgeUsed := by
    intro hpos
    have hne : r.edges ≠ [] := by
      intro hc
      have := inil.mp hc
      omega
    obtain ⟨w, hwmem⟩ := List.exists_mem_of_ne_nil _ hne
    exact unusedCount_lt_of_new hmono (ibound w hwmem).2
      (ibound w hwmem).1 ((iused w).mpr (Or.inr hwmem))
  have happend : ∀ p : SBDPath,
      SBDInv g (SBDState.mk r.edgeUsed r.outD r.inD (st.paths ++ [p])
        (st.pathEdges ++ [r.edges])) := by
    intro p
    refine ⟨ideg, ?_, ?_, ?_, ?_⟩
    · intro e
      show r.edgeUsed e = true ↔ _
      rw [iused e, hinv.usedIff e]
      rw [List.flatten_append]
      simp
    · show (List.flatten (st.pathEdges ++ [r.edges])).Nodup
      rw [List.flatten_append]
      simp only [List.flatten_cons, List.flatten_nil, List.append_nil]
      rw [List.nodup_append]
      refine ⟨hinv.nodup, indup, ?_⟩
      intro a ha hb
      have h1 : st.edgeUsed a = true := (hinv.usedIff a).mpr ha
      have h2 : st.edgeUsed a = false := (ibound a hb).1
      rw [h1] at h2
      exact Bool.noConfusion h2
    · intro e he
      rw [List.flatten_append] at he
      simp only [List.flatten_cons, List.flatten_nil, List.append_nil,
        List.mem_append] at he
      rcases he with he | he
      · exact hinv.bound e he
      · exact (ibound e he).2
    · simp [hinv.plen]
  simp only [doWalk]
  rw [← hr]
  by_cases h1 : r.vfin = v
  · rw [if_neg (not_not_intro h1)]
    by_cases h2 : r.nodes = []
    · rw [if_pos h2]
      have hnil : r.edges = [] :=
        List.length_eq_zero.mp (by rw [← ilen, h2, List.length_nil])
      refine ⟨⟨ideg, ?_, hinv.nodup, hinv.bound, hinv.plen⟩, hmono, hprog⟩
      intro e
      show r.edgeUsed e = true ↔ _
      rw [iused e, hinv.usedIff e, hnil]
      simp
    · rw [if_neg h2]
      exact ⟨happend _, hmono, hprog⟩
  · rw [if_pos h1]
    exact ⟨happend _, hmono, hprog⟩

/-- The phase-1 inner loop preserves the invariant and only marks more
edges used. -/
theorem phase1Inner_spec (g : Graph) :
    ∀ (fuel d : Nat) (st : SBDState), SBDInv g st →
      SBDInv g (phase1Inner g fuel d st) ∧
      (∀ e, st.edgeUsed e = true →
        (phase1Inner g fuel d st).edgeUsed e = true) := by
  intro fuel
  induction fuel with
  | zero => intro d st hinv; exact ⟨hinv, fun e he => he⟩
  | succ fuel ih =>
    intro d st hinv
    by_cases hg : st.inD d < st.outD d
    · have hstep : phase1Inner g (fuel + 1) d st =
          phase1Inner g fuel d (doWalk g d st) := by
        show (if st.inD d < st.outD d then
          phase1Inner g fuel d (doWalk g d st) else st) = _
        rw [if_pos hg]
      rw [hstep]
      obtain ⟨h1, h2, -⟩ := doWalk_spec g d st hinv
      obtain ⟨h3, h4⟩ := ih d (doWalk g d st) h1
      exact ⟨h3, fun e he => h4 e (h2 e he)⟩
    · have hstep : phase1Inner g (fuel + 1) d st = st := by
        show (if st.inD d < st.outD d then
          phase1Inner g fuel d (doWalk g d st) else st) = st
        rw [if_neg hg]
      rw [hstep]
      exact ⟨hinv, fun e he => he⟩

/-- The phase-2 inner loop preserves the invariant, only marks more
edges used, and exits with no unused outbound edge at its vertex. -/
theorem phase2Inner_spec (g : Graph) :
    ∀ (fuel i : Nat) (st : SBDState), SBDInv g st →
      unusedCount g.ecount st.edgeUsed < fuel →
      SBDInv g (phase2Inner g fuel i st) ∧
      (∀ e, st.edgeUsed e = true →
        (phase2Inner g fuel i st).edgeUsed e = true) ∧
      ¬ (0 < (phase2Inner g fuel i st).outD i) := by
  intro fuel
  induction fuel with
  | zero => intro i st _ hfu; exact absurd hfu (Nat.not_lt_zero _)
  | succ fuel ih =>
    intro i st hinv hfu
    by_cases hg : 0 < st.outD i
    · have hstep : phase2Inner g (fuel + 1) i st =
          phase2Inner g fuel i (doWalk g i st) := by
        show (if 0 < st.outD i then
          phase2Inner g fuel i (doWalk g i st) else st) = _
        rw [if_pos hg]
      rw [hstep]
      obtain ⟨h1, h2, h3⟩ := doWalk_spec g i st hinv
      have hfu' : unusedCount g.ecount (doWalk g i st).edgeUsed < fuel := by
        have := h3 hg
        omega
      obtain ⟨h4, h5, h6⟩ := ih i (doWalk g i st) h1 hfu'
      exact ⟨h4, fun e he => h5 e (h2 e he), h6⟩
    · have hstep : phase2Inner g (fuel + 1) i st = st := by
        show (if 0 < st.outD i then
          phase2Inner g fuel i (doWalk g i st) else st) = st
        rw [if_neg hg]
      rw [hstep]
      exact ⟨hinv, fun e he => he, hg⟩

/-- Phase 1 as a whole preserves the invariant. -/
theorem phase1Fold_spec (g : Graph) :
    ∀ (l : List Nat) (st : SBDState), SBDInv g st →
      SBDInv g (l.foldl (fun st d => phase1Inner g (g.ecount + 1) d st) st) ∧
      (∀ e, st.edgeUsed e = true →
        (l.foldl (fun st d => phase1Inner g (g.ecount + 1) d st)
          st).edgeUsed e = true) := by
  intro l
  induction l with
  | nil => intro st hinv; exact ⟨hinv, fun e he => he⟩
  | cons d l ih =>
    intro st hinv
    simp only [List.foldl_cons]
    obtain ⟨h1, h2⟩ := phase1Inner_spec g (g.ecount + 1) d st hinv
    obtain ⟨h3, h4⟩ := ih (phase1Inner g (g.ecount + 1) d st) h1
    exact ⟨h3, fun e he => h4 e (h2 e he)⟩

/-- Phase 2 as a whole preserves the invariant and leaves every
processed vertex with no unused outbound edge. -/
theorem phase2Fold_spec (g : Graph) :
    ∀ (l : List Nat) (st : SBDState), SBDInv g st →
      SBDInv g (l.foldl (fun st i => phase2Inner g (g.ecount + 1) i st) st) ∧
      (∀ e, st.edgeUsed e = true →
        (l.foldl (fun st i => phase2Inner g (g.ecount + 1) i st)
          st).edgeUsed e = true) ∧
      (∀ i ∈ l, ¬ (0 < (l.foldl
        (fun st i => phase2Inner g (g.ecount + 1) i st) st).outD i)) := by
  intro l
  induction l with
  | nil => intro st hinv; exact ⟨hinv, fun e he => he, by simp⟩
  | cons i l ih =>
    intro st hinv
    simp only [List.foldl_cons]
    have hfu : unusedCount g.ecount st.edgeUsed < g.ecount + 1 :=
      Nat.lt_succ_of_le (unusedCount_le _)
    obtain ⟨h1, h2, h3⟩ := phase2Inner_spec g (g.ecount + 1) i st hinv hfu
    obtain ⟨h4, h5, h6⟩ := ih (phase2Inner g (g.ecount + 1) i st) h1
    refine ⟨h4, fun e he => h5 e (h2 e he), ?_⟩
    intro j hj
    rcases List.mem_cons.mp hj with rfl | hj
    · have hle := outD_mono g h1.deg h4.deg h5 j
      omega
    · exact h6 j hj

/-- The state `calculate()` starts its walk phases with satisfies the
invariant. -/
theorem sbdInv_init (g : Graph) :
    SBDInv g (SBDState.mk (fun _ => false) (fun v => (g.outDeg v : Int))
      (fun v => (g.inDeg v : Int)) [] []) := by
  refine ⟨⟨?_, ?_⟩, ?_, ?_, ?_, rfl⟩
  · intro v
    show ((g.outDeg v : Nat) : Int) = _
    have hfl : (g.incidentOut v).filter (fun e => (false : Bool) = false) =
        g.incidentOut v :=
      List.filter_eq_self.mpr (fun a _ => by simp)
    rw [hfl, incidentOut_length]
  · intro v
    show ((g.inDeg v : Nat) : Int) = _
    have hfl : (g.incidentIn v).filter (fun e => (false : Bool) = false) =
        g.incidentIn v :=
      List.filter_eq_self.mpr (fun a _ => by simp)
    rw [hfl, incidentIn_length]
  · intro e; simp
  · simp
  · simp

/-- C4: after SBD `calculate()` every edge is used — each edge's
`edgeUsed` bit is set, each edge was consumed by exactly one emitted
walk, only real edges were consumed, and every emitted walk carries its
consumed-edge record: the walks cover `E` completely and without
overlap. -/
theorem sbd_edge_cover (g : Graph) (membership : Nat → Nat)
    (clusterCount : Nat) (hWF : g.WF) :
    (∀ e, e < g.ecount →
      (sbdCalculate g membership clusterCount).edgeUsed e = true) ∧
    (∀ e, e < g.ecount →
      ((sbdCalculate g membership clusterCount).pathEdges.flatten).count e
        = 1) ∧
    (∀ e ∈ (sbdCalculate g membership clusterCount).pathEdges.flatten,
      e < g.ecount) ∧
    (sbdCalculate g membership clusterCount).paths.length =
      (sbdCalculate g membership clusterCount).pathEdges.length := by
  have h0 := sbdInv_init g
  obtain ⟨h1, -⟩ := phase1Fold_spec g (sbdDrivers g membership clusterCount)
    _ h0
  obtain ⟨h2, -, hout⟩ := phase2Fold_spec g (List.range g.n) _ h1
  have hall : ∀ e, e < g.ecount →
      (sbdCalculate g membership clusterCount).edgeUsed e = true := by
    intro e he
    show ((List.range g.n).foldl
      (fun st i => phase2Inner g (g.ecount + 1) i st)
      ((sbdDrivers g membership clusterCount).foldl
        (fun st d => phase1Inner g (g.ecount + 1) d st)
        (SBDState.mk (fun _ => false) (fun v => (g.outDeg v : Int))
          (fun v => (g.inDeg v : Int)) [] []))).edgeUsed e = true
    by_contra hne
    have hfalse : ((List.range g.n).foldl
        (fun st i => phase2Inner g (g.ecount + 1) i st)
        ((sbdDrivers g membership clusterCount).foldl
          (fun st d => phase1Inner g (g.ecount + 1) d st)
          (SBDState.mk (fun _ => false) (fun v => (g.outDeg v : Int))
            (fun v => (g.inDeg v : Int)) [] []))).edgeUsed e = false := by
      revert hne
      cases ((List.range g.n).foldl
        (fun st i => phase2Inner g (g.ecount + 1) i st)
        ((sbdDrivers g membership clusterCount).foldl
          (fun st d => phase1Inner g (g.ecount + 1) d st)
          (SBDState.mk (fun _ => false) (fun v => (g.outDeg v : Int))
            (fun v => (g.inDeg v : Int)) [] []))).edgeUsed e <;> simp
    have hedge : g.edges.getD e (0, 0) ∈ g.edges := by
      rw [List.getD_eq_getElem g.edges (0, 0) he]
      exact List.getElem_mem he
    have hvlt : g.src e < g.n := (hWF _ hedge).1
    have hmem : e ∈ g.incidentOut (g.src e) :=
      List.mem_filter.mpr ⟨List.mem_range.mpr he, by simp⟩
    have hpos : 0 < ((g.incidentOut (g.src e)).filter
        (fun x => ((List.range g.n).foldl
          (fun st i => phase2Inner g (g.ecount + 1) i st)
          ((sbdDrivers g membership clusterCount).foldl
            (fun st d => phase1Inner g (g.ecount + 1) d st)
            (SBDState.mk (fun _ => false) (fun v => (g.outDeg v : Int))
              (fun v => (g.inDeg v : Int)) [] []))).edgeUsed x
                = false)).length :=
      List.length_pos_of_mem (List.mem_filter.mpr ⟨hmem, by simp [hfalse]⟩)
    have houtv := h2.deg.out (g.src e)
    have hnopos := hout (g.src e) (List.mem_range.mpr hvlt)
    rw [houtv] at hnopos
    exact hnopos (by exact_mod_cast hpos)
  refine ⟨hall, ?_, h2.bound, h2.plen⟩
  intro e he
  have hmem : e ∈ (sbdCalculate g membership clusterCount).pathEdges.flatten :=
    (h2.usedIff e).mp (hall e he)
  exact List.count_eq_one_of_mem h2.nodup hmem

/-- Witness for C4 on the 3-cycle: the graph is well-formed and the
first edge's used bit is set after `calculate()`. -/
theorem sbd_edge_cover_witness :
    exCycle3.WF ∧
    (sbdCalculate exCycle3 (fun _ => 0) 1).edgeUsed 0 = true :=
  ⟨by decide, (sbd_edge_cover exCycle3 (fun _ => 0) 1 (by decide)).1 0
    (by decide)⟩

/-- C2 (refuted — the code disagrees with the claimed formula): with
`EDGE_MEASURE`, `controllability()` divides only the number of control
paths that need an input signal by `|E|`; the balanced-components term
of the claimed formula is absent (the source marks the spot with
`// TODO: add balanced components`).  On the directed 3-cycle — one
all-balanced weak component and no open walks — the code returns `0`
while the claimed value is `1/3`. -/
theorem sbd_edge_measure_code_bug :
    sbdControllability exCycle3 (sbdCalculate exCycle3 (fun _ => 0) 1)
      CMeasure.edge = 0 ∧
    specEdgeMeasure exCycle3 (sbdCalculate exCycle3 (fun _ => 0) 1)
      (fun _ => 0) 1 = 1 / 3 ∧
    sbdControllability exCycle3 (sbdCalculate exCycle3 (fun _ => 0) 1)
      CMeasure.edge ≠
      specEdgeMeasure exCycle3 (sbdCalculate exCycle3 (fun _ => 0) 1)
        (fun _ => 0) 1 := by
  have h1 : ((sbdCalculate exCycle3 (fun _ => 0) 1).paths.filter
      (fun p => p.needsInputSignal)).length = 0 := by decide
  have h2 : balancedComponentCount exCycle3 (fun _ => 0) 1 = 1 := by decide
  have h3 : exCycle3.ecount = 3 := by decide
  have ha : sbdControllability exCycle3 (sbdCalculate exCycle3 (fun _ => 0) 1)
      CMeasure.edge = 0 := by
    simp [sbdControllability, h1, h3]
  have hb : specEdgeMeasure exCycle3 (sbdCalculate exCycle3 (fun _ => 0) 1)
      (fun _ => 0) 1 = 1 / 3 := by
    simp [specEdgeMeasure, h1, h2, h3]
  exact ⟨ha, hb, by rw [ha, hb]; norm_num⟩

/-- C8 (refuted — code bug): running `calculate()` twice does reproduce
the driver set, but not the control-path list: `clearControlPaths()`
deletes the path objects without removing their entries from
`m_controlPaths` (no `clear()` call), so the second run appends its
walks after the first run's stale entries.  On the 3-cycle the first
run ends with one control path and the second with two, so the
control-path sets differ even modulo ordering (and the stale entries
are dangling pointers in the C++). -/
theorem sbd_calculate_twice_grows :
    (sbdSolverCalculate exCycle3 (fun _ => 0) 1
      (sbdSolverCalculate exCycle3 (fun _ => 0) 1 []).2).1 =
      (sbdSolverCalculate exCycle3 (fun _ => 0) 1 []).1 ∧
    (sbdSolverCalculate exCycle3 (fun _ => 0) 1 []).2.length = 1 ∧
    (sbdSolverCalculate exCycle3 (fun _ => 0) 1
      (sbdSolverCalculate exCycle3 (fun _ => 0) 1 []).2).2.length = 2 := by
  refine ⟨rfl, ?_, ?_⟩ <;> decide

end Netctrl
